import Mathlib

set_option maxHeartbeats 1000000

namespace SimplePIR

/-- Size of the `u64` value space, `2^64`.  The source computes in 64-bit
machine integers; sums and products are reduced modulo this constant wherever
the source can overflow (release-mode wrapping semantics — in debug builds the
same inputs abort, so an overflowing operation never yields the exact
mathematical result either way). -/
def U64MOD : ℕ := 18446744073709551616

/-- `u64::MAX = 2^64 - 1`. -/
def U64MAX : ℕ := 18446744073709551615

/-- Reduction of a mathematical integer into the `u64` value range. -/
def wrap64 (x : ℕ) : ℕ := x % U64MOD

/-- `Element` (src/element.rs, lines 12-16): a value `uint` in the ring
`ℤ/qℤ`.  The representation invariant `uint < q` is established by
`Element.fromVal` and tracked as explicit hypotheses elsewhere. -/
structure Element where
  q : ℕ
  uint : ℕ
  deriving DecidableEq, Repr

/-- `Element::new(q)` (element.rs:19-24): performs no validation of the
modulus and sets the value to zero. -/
def Element.new (q : ℕ) : Element := ⟨q, 0⟩

/-- `Element::zero(q)` (element.rs:33-38): performs no validation of the
modulus and sets the value to zero. -/
def Element.zero (q : ℕ) : Element := ⟨q, 0⟩

/-- `Element::from(q, uint)` (element.rs:26-31): asserts `q < u64::MAX` and
`uint < q`; `none` models the assertion failure. -/
def Element.fromVal (q uint : ℕ) : Option Element :=
  if q < U64MAX ∧ uint < q then some ⟨q, uint⟩ else none

/-- Arithmetic of `impl Add for Element` (element.rs:142-151):
`(self.uint + rhs.uint) % self.q`, the `u64` addition wrapping modulo `2^64`.
Defined under the precondition `self.q = rhs.q`, which the source asserts;
`Element.add?` is the failure-complete version. -/
def Element.add (a b : Element) : Element :=
  ⟨a.q, wrap64 (a.uint + b.uint) % a.q⟩

/-- Arithmetic of `impl Mul for Element` (element.rs:121-130):
`(self.uint * rhs.uint) % self.q`, the `u64` product wrapping modulo `2^64`.
Defined under the precondition `self.q = rhs.q`. -/
def Element.mul (a b : Element) : Element :=
  ⟨a.q, wrap64 (a.uint * b.uint) % a.q⟩

/-- `impl Sub for Element` (element.rs:163-180): branches on
`self.uint < other.uint`; neither branch can overflow when both values are
below the (common) modulus. -/
def Element.sub (a b : Element) : Element :=
  if a.uint < b.uint then ⟨a.q, a.q - (b.uint - a.uint)⟩
  else ⟨a.q, a.uint - b.uint⟩

/-- The two ways an `Element` ring operation aborts in the source: the
`assert_eq!(self.q, rhs.q)` precondition failure, and the `% 0` arithmetic
abort reached when both moduli are zero. -/
inductive ArithError where
  | modulusMismatch
  | moduloByZero
  deriving DecidableEq, Repr

/-- `impl Add for Element`, failure-complete: the modulus-equality assertion
fires first; when the (equal) moduli are zero, the `% 0` aborts. -/
def Element.add? (a b : Element) : Except ArithError Element :=
  if a.q ≠ b.q then .error .modulusMismatch
  else if a.q = 0 then .error .moduloByZero
  else .ok (a.add b)

/-- `impl Mul for Element`, failure-complete (see `Element.add?`). -/
def Element.mul? (a b : Element) : Except ArithError Element :=
  if a.q ≠ b.q then .error .modulusMismatch
  else if a.q = 0 then .error .moduloByZero
  else .ok (a.mul b)

/-- The rejection threshold `min` of `Element::gen_uniform_rand`
(element.rs:65): `(u64::MAX - q) % q`. -/
def rejection_min (q : ℕ) : ℕ := (U64MAX - q) % q

/-- One iteration of the rejection loop of `gen_uniform_rand`
(element.rs:63-74) on the raw 64-bit draw `r` (the entropy source is
modelled as the input): draws below the threshold are rejected (`none`),
accepted draws are reduced `mod q` through `Element::from`. -/
def gen_uniform_rand_step (q r : ℕ) : Option Element :=
  if rejection_min q ≤ r then Element.fromVal q (r % q) else none

/-- Number of raw 64-bit draws in `[0, 2^64)` that `gen_uniform_rand q`
accepts and reduces to the value `v`. -/
def acceptedCount (q v : ℕ) : ℕ :=
  ((Finset.Ico (rejection_min q) U64MOD).filter (fun r => r % q = v)).card

/-- The digit-filling loop of `Element::decomposed` (element.rs:91-96):
writes `n % p` into `digits[i]` while `n > 0`; writing past the end of the
buffer is the source's index-out-of-bounds abort (`none`).  `fuel` only
bounds the recursion; it never runs out when the loop is entered with
`digits.length + 1` (each iteration increments `i`). -/
def digitsLoopAux (p : ℕ) : ℕ → ℕ → ℕ → List ℕ → Option (List ℕ)
  | 0, _, _, _ => none
  | fuel + 1, n, i, digits =>
    if n = 0 then some digits
    else if i < digits.length then
      digitsLoopAux p fuel (n / p) (i + 1) (digits.set i (n % p))
    else none

/-- Fuelled ceiling logarithm, following the recurrence of `Nat.clog`
step for step; structurally recursive so that concrete inputs evaluate
inside the kernel.  `ceilLogAux p n n = Nat.clog p n` (proved below). -/
def ceilLogAux (p : ℕ) : ℕ → ℕ → ℕ
  | 0, _ => 0
  | fuel + 1, n =>
    if 1 < p ∧ 1 < n then ceilLogAux p fuel ((n + p - 1) / p) + 1 else 0

/-- Exact ceiling logarithm `⌈log_p n⌉`, computable by the kernel. -/
def ceilLog (p n : ℕ) : ℕ := ceilLogAux p n n

/-- `Element::decomposed(self, p)` (element.rs:86-98).  The digit count
`((q - 1) as f64).log(p as f64).ceil() as usize` is modelled as the exact
ceiling logarithm `ceilLog p (q - 1) = Nat.clog p (q - 1)` (the f64
computation agrees except possibly at near-integer logarithms; the
counterexamples below use inputs where the f64 value is exact). -/
def Element.decomposed (e : Element) (p : ℕ) : Option (List ℕ) :=
  let numDigits := ceilLog p (e.q - 1)
  digitsLoopAux p (numDigits + 1) e.uint 0 (List.replicate numDigits 0)

/-- The accumulation loop of `Element::recompose` (element.rs:77-82):
`result += r * digit; r *= p`, in wrapping `u64` arithmetic. -/
def recomposeAcc (p : ℕ) : List ℕ → ℕ → ℕ → ℕ
  | [], result, _ => result
  | d :: ds, result, r =>
    recomposeAcc p ds (wrap64 (result + wrap64 (r * d))) (wrap64 (r * p))

/-- `Element::recompose(p, q, vals)` (element.rs:76-84): the accumulated
value goes through `Element::from(q, result)`, whose assertions can fail. -/
def Element.recompose (p q : ℕ) (vals : List ℕ) : Option Element :=
  Element.fromVal q (recomposeAcc p vals 0 1)

/-- Mathematical base-`p` value of a least-significant-first digit list. -/
def valp (p : ℕ) (ds : List ℕ) : ℕ := ds.foldr (fun d acc => d + p * acc) 0

/-- Mathematical dot product of the value columns of two element lists
(truncating to the shorter list, as `zip` does). -/
def natDot (row v : List Element) : ℕ :=
  ((List.zip row v).map (fun ab => ab.1.uint * ab.2.uint)).sum

/-- Modelled from the spec: `crate::matrix` is not under src/.  Spec §4.2
requires elementwise add/subtract over identical shapes, the moduli of
paired entries agreeing through the element-level assertions (§3); this
check guards both. -/
def sameShapeQ (x y : List (List Element)) : Prop :=
  x.length = y.length ∧
    ∀ rc ∈ List.zip x y, rc.1.length = rc.2.length ∧
      ∀ ab ∈ List.zip rc.1 rc.2, ab.1.q = ab.2.q

instance (x y : List (List Element)) : Decidable (sameShapeQ x y) := by
  unfold sameShapeQ
  exact inferInstance

/-- Modelled from the spec: elementwise matrix addition (spec §4.2);
shape or modulus mismatch is a fatal failure (`none`). -/
def Matrix.add? (x y : List (List Element)) : Option (List (List Element)) :=
  if sameShapeQ x y then some (List.zipWith (List.zipWith Element.add) x y)
  else none

/-- Modelled from the spec: elementwise matrix subtraction (spec §4.2). -/
def Matrix.sub? (x y : List (List Element)) : Option (List (List Element)) :=
  if sameShapeQ x y then some (List.zipWith (List.zipWith Element.sub) x y)
  else none

/-- Modelled from the spec: scaling a matrix by a single element through
elementwise broadcast multiply (spec §4.2, "single-element embedding and
scalar multiply"). -/
def Matrix.scale (c : Element) (x : List (List Element)) : List (List Element) :=
  x.map (List.map (fun e => c.mul e))

/-- Modelled from the spec: the row-by-row dot product of the matrix–vector
multiply, each entry accumulated via ring multiply/add (spec §4.2); the
accumulator starts at the ring zero of the ambient modulus `q`. -/
def dotProd (q : ℕ) (row v : List Element) : Element :=
  (List.zip row v).foldl (fun acc ab => acc.add (ab.1.mul ab.2)) (Element.zero q)

/-- Modelled from the spec: matrix–vector multiply against a vector of
matching length, producing a column vector (spec §4.2); length mismatch is
a fatal failure (`none`). -/
def Matrix.mulVec? (q : ℕ) (x : List (List Element)) (v : List Element) :
    Option (List (List Element)) :=
  if ∀ row ∈ x, row.length = v.length then
    some (x.map (fun row => [dotProd q row v]))
  else none

/-- `Params` (regev.rs:6-19).  `std_dev` only feeds the Gaussian sampler
(floating point and randomness), which no claim touches; it is omitted. -/
structure Params where
  a : List (List Element)
  q : ℕ
  p : ℕ
  n : ℕ
  m : ℕ
  deriving DecidableEq, Repr

/-- `check_secret_length` (regev.rs:41-44). -/
abbrev check_secret_length (P : Params) (secret : List Element) : Prop :=
  secret.length = P.n

/-- `check_plaintext_mod` (regev.rs:46-50). -/
abbrev check_plaintext_mod (P : Params) (pt : Element) : Prop :=
  pt.uint < P.p ∧ pt.q = P.p

/-- `check_ciphertext_mod` (regev.rs:52-55). -/
abbrev check_ciphertext_mod (P : Params) (c : Element) : Prop :=
  c.uint < P.q

/-- `check_error_length` (regev.rs:57-60). -/
abbrev check_error_length (P : Params) (e : List Element) : Prop :=
  e.length = P.m

/-- `encrypt` (regev.rs:62-89).  `none` models any assertion failure in the
body, including those inside `Element::from` and the (spec-modelled) matrix
shape checks; the result is the single entry `c[0][0]`. -/
def encrypt (P : Params) (secret e : List Element) (plaintext : Element) :
    Option Element :=
  if check_secret_length P secret ∧ check_plaintext_mod P plaintext ∧
      check_error_length P e then
    (Matrix.mulVec? P.q P.a secret).bind fun a_s =>
    (Matrix.add? a_s [e]).bind fun b =>
    (Element.fromVal P.q (P.q / P.p)).bind fun fl =>
    (Element.fromVal P.q plaintext.uint).bind fun ptq =>
    (Matrix.add? b (Matrix.scale fl [[ptq]])).bind fun c =>
    some ((c.getD 0 []).getD 0 (Element.zero P.q))
  else none

/-- Round-to-nearest of `a / b` with halves rounded up, in exact integer
arithmetic: `(2*a + b) / (2*b) = ⌊a/b + 1/2⌋`. -/
def roundDiv (a b : ℕ) : ℕ := (2 * a + b) / (2 * b)

/-- `decrypt` (regev.rs:91-111).  The rescaling
`((raw * 2) as f64 / q as f64).round() as u64 % p` is modelled as the exact
rational round-half-up `roundDiv (raw * 2) q % p`: for the moduli admitted
by the theorems below (`q ≤ 2^32`) the integer inputs and the quotient are
exactly representable or bounded away from ties by at least `1/(2q) > ulp`,
so the f64 computation agrees with the exact one.  The final
`Element::from(p, x)` can fail. -/
def decrypt (P : Params) (secret : List Element) (ciphertext : Element) :
    Option Element :=
  if check_secret_length P secret ∧ check_ciphertext_mod P ciphertext ∧
      ciphertext.q = P.q then
    (Matrix.mulVec? P.q P.a secret).bind fun a_s =>
    (Matrix.sub? [[ciphertext]] a_s).bind fun raw =>
    Element.fromVal P.p
      (roundDiv (wrap64 (((raw.getD 0 []).getD 0 (Element.zero P.q)).uint * 2))
        P.q % P.p)
  else none

/-- The rescaling that claim C4 (spec section 4.3) prescribes for `decrypt`,
stated from the spec words for comparison with the source: multiply the
residual by `p`, divide by `q` rounding to nearest, reduce `mod p`. -/
def claimedRescale (r p q : ℕ) : ℕ := roundDiv (r * p) q % p

/-- The per-sample body of `gen_error_vec` (regev.rs:146-151), iterated over
the list of uniform draws: `Element::from(q, rand)` then subtract
`Element::from(q, 3)` (`half_sample_space = 6 / 2`). -/
def genErrorLoop (P : Params) : List ℕ → Option (List Element)
  | [] => some []
  | r :: rest =>
    (Element.fromVal P.q r).bind fun e =>
    (Element.fromVal P.q 3).bind fun h =>
    (genErrorLoop P rest).bind fun es =>
    some (e.sub h :: es)

/-- `gen_error_vec` (regev.rs:142-153): `m` small-magnitude elements.  The
`m` outputs of `gen_uniform_rand(6)` are modelled as the injected draw
function `draws` (one value in `[0, 6)` per loop iteration, see
`gen_uniform_rand_step`). -/
def gen_error_vec (P : Params) (draws : ℕ → ℕ) : Option (List Element) :=
  genErrorLoop P ((List.range P.m).map draws)

/-- The per-index loop body of `query` (regev.rs:171-188): selector bit 1 at
`idx`, 0 elsewhere, pushed through `Element::from(p, bit)` and `encrypt`. -/
def queryLoop (P : Params) (idx : ℕ) (s : List Element)
    (errs : ℕ → List Element) : List ℕ → Option (List Element)
  | [] => some []
  | i :: rest =>
    (Element.fromVal P.p (if i = idx then 1 else 0)).bind fun pt =>
    (encrypt P s (errs i) pt).bind fun c =>
    (queryLoop P idx s errs rest).bind fun cs =>
    some (c :: cs)

/-- `query` (regev.rs:164-189): asserts `idx < db_size`, then builds one
ciphertext per index.  The fresh error vector drawn by `gen_error_vec` at
index `i` is modelled as the injected input `errs i`. -/
def query (P : Params) (idx : ℕ) (s : List Element) (db_size : ℕ)
    (errs : ℕ → List Element) : Option (List Element) :=
  if idx < db_size then queryLoop P idx s errs (List.range db_size) else none

/-- The accumulation loop of `answer` (regev.rs:200-205), with the running
index made explicit: for every database entry with value 1, add `params.a`
into the matrix total and `query[i]` into the ciphertext total.  `none`
models the panics: `query[i]` out of bounds, the `AddAssign` modulus
assertion, and the (spec-modelled) matrix shape check. -/
def answerLoop (P : Params) (qs : List Element) :
    List Element → ℕ → List (List Element) → Element →
      Option (List (List Element) × Element)
  | [], _, sa, sc => some (sa, sc)
  | item :: rest, i, sa, sc =>
    if item.uint = 1 then
      (qs.get? i).bind fun qi =>
      (Matrix.add? sa P.a).bind fun sa2 =>
      if sc.q = qi.q then answerLoop P qs rest (i + 1) sa2 (sc.add qi)
      else none
    else answerLoop P qs rest (i + 1) sa sc

/-- `answer` (regev.rs:191-207): starts from an `m × n` zero matrix and a
zero ciphertext `mod q`, then runs the accumulation loop over the
database. -/
def answer (P : Params) (qs db : List Element) :
    Option (List (List Element) × Element) :=
  answerLoop P qs db 0
    (List.replicate P.m (List.replicate P.n (Element.zero P.q)))
    (Element.zero P.q)

/-! ### Helper lemmas -/

theorem ceilLogAux_eq_clog (p : ℕ) : ∀ fuel n, n ≤ fuel →
    ceilLogAux p fuel n = Nat.clog p n := by
  intro fuel
  induction fuel with
  | zero =>
    intro n hn
    interval_cases n
    simp [ceilLogAux]
  | succ fuel ih =>
    intro n hn
    by_cases h : 1 < p ∧ 1 < n
    · rw [ceilLogAux, if_pos h, Nat.clog_of_two_le h.1 h.2, ih]
      have := Nat.add_pred_div_lt h.1 h.2
      omega
    · rw [ceilLogAux, if_neg h]
      rcases Nat.lt_or_ge 1 p with hp | hp
      · have hn1 : n ≤ 1 := by
          rcases Nat.lt_or_ge 1 n with hh | hh
          · exact absurd ⟨hp, hh⟩ h
          · exact hh
        rw [Nat.clog_of_right_le_one hn1]
      · rw [Nat.clog_of_left_le_one hp]

theorem ceilLog_eq_clog (p n : ℕ) : ceilLog p n = Nat.clog p n :=
  ceilLogAux_eq_clog p n n le_rfl

theorem wrap64_eq_of_lt {x : ℕ} (h : x < U64MOD) : wrap64 x = x :=
  Nat.mod_eq_of_lt h

theorem Element.add_eval (a b : Element) (h : a.uint + b.uint < U64MOD) :
    a.add b = ⟨a.q, (a.uint + b.uint) % a.q⟩ := by
  unfold Element.add
  rw [wrap64_eq_of_lt h]

theorem Element.mul_eval (a b : Element) (h : a.uint * b.uint < U64MOD) :
    a.mul b = ⟨a.q, (a.uint * b.uint) % a.q⟩ := by
  unfold Element.mul
  rw [wrap64_eq_of_lt h]

theorem Element.sub_eval (a b : Element) (ha : a.uint < a.q) (hb : b.uint < a.q) :
    a.sub b = ⟨a.q, (a.uint + a.q - b.uint) % a.q⟩ := by
  unfold Element.sub
  by_cases h : a.uint < b.uint
  · rw [if_pos h, Nat.mod_eq_of_lt (by omega)]
    congr 1
    omega
  · rw [if_neg h]
    have h2 : a.uint + a.q - b.uint = (a.uint - b.uint) + a.q := by omega
    rw [h2, Nat.add_mod_right, Nat.mod_eq_of_lt (by omega)]

theorem Element.fromVal_eq_some {q v : ℕ} (hq : q < U64MAX) (hv : v < q) :
    Element.fromVal q v = some ⟨q, v⟩ := by
  unfold Element.fromVal
  rw [if_pos ⟨hq, hv⟩]

theorem Element.fromVal_eq_none {q v : ℕ} (hv : q ≤ v) :
    Element.fromVal q v = none := by
  unfold Element.fromVal
  rw [if_neg]
  rintro ⟨-, h2⟩
  omega

theorem Matrix.mulVec_single (q : ℕ) (row v : List Element)
    (h : row.length = v.length) :
    Matrix.mulVec? q [row] v = some [[dotProd q row v]] := by
  unfold Matrix.mulVec?
  rw [if_pos]
  · rfl
  · intro r hr
    rw [List.mem_singleton] at hr
    subst hr
    exact h

theorem Matrix.add_row (r1 r2 : List Element) (hlen : r1.length = r2.length)
    (hq : ∀ ab ∈ List.zip r1 r2, ab.1.q = ab.2.q) :
    Matrix.add? [r1] [r2] = some [List.zipWith Element.add r1 r2] := by
  unfold Matrix.add?
  rw [if_pos]
  · rfl
  · refine ⟨rfl, ?_⟩
    intro rc hrc
    simp only [List.zip_cons_cons, List.zip_nil_right, List.mem_singleton] at hrc
    subst hrc
    exact ⟨hlen, hq⟩

theorem Matrix.sub_single (x y : Element) (h : x.q = y.q) :
    Matrix.sub? [[x]] [[y]] = some [[x.sub y]] := by
  unfold Matrix.sub?
  rw [if_pos]
  · rfl
  · refine ⟨rfl, ?_⟩
    intro rc hrc
    simp only [List.zip_cons_cons, List.zip_nil_right, List.mem_singleton] at hrc
    subst hrc
    refine ⟨rfl, ?_⟩
    intro ab hab
    simp only [List.zip_cons_cons, List.zip_nil_right, List.mem_singleton] at hab
    subst hab
    exact h

theorem dot_fold_eval (q : ℕ) (hq : 0 < q) (hq32 : q ≤ 2 ^ 32) :
    ∀ (l : List (Element × Element)) (acc : ℕ), acc < q →
      (∀ ab ∈ l, ab.1.q = q ∧ ab.1.uint < q ∧ ab.2.uint < q) →
      List.foldl (fun (z : Element) ab => z.add (ab.1.mul ab.2)) ⟨q, acc⟩ l =
        ⟨q, (acc + (l.map (fun ab => ab.1.uint * ab.2.uint)).sum) % q⟩ := by
  intro l
  induction l with
  | nil =>
    intro acc hacc _
    simp only [List.foldl_nil, List.map_nil, List.sum_nil, Nat.add_zero]
    rw [Nat.mod_eq_of_lt hacc]
  | cons ab rest ih =>
    intro acc hacc hl
    obtain ⟨habq, habu, habv⟩ := hl ab (List.mem_cons_self ab rest)
    have hb1 : ab.1.uint ≤ 2 ^ 32 - 1 := by omega
    have hb2 : ab.2.uint ≤ 2 ^ 32 - 1 := by omega
    have hprod := Nat.mul_le_mul hb1 hb2
    have hmulw : ab.1.uint * ab.2.uint < U64MOD := by
      unfold U64MOD
      omega
    have hmul : ab.1.mul ab.2 = ⟨q, ab.1.uint * ab.2.uint % q⟩ := by
      rw [Element.mul_eval ab.1 ab.2 hmulw, habq]
    have haddw : acc + ab.1.uint * ab.2.uint % q < U64MOD := by
      have := Nat.mod_lt (ab.1.uint * ab.2.uint) hq
      unfold U64MOD
      omega
    have hstep : (Element.mk q acc).add (ab.1.mul ab.2) =
        ⟨q, (acc + ab.1.uint * ab.2.uint % q) % q⟩ := by
      rw [hmul, Element.add_eval _ _ haddw]
    rw [List.foldl_cons, hstep,
      ih _ (Nat.mod_lt _ hq) (fun x hx => hl x (List.mem_cons_of_mem _ hx))]
    congr 1
    rw [List.map_cons, List.sum_cons, Nat.mod_add_mod]
    have hcong : acc + ab.1.uint * ab.2.uint % q +
        (rest.map (fun ab => ab.1.uint * ab.2.uint)).sum ≡
        acc + ab.1.uint * ab.2.uint +
        (rest.map (fun ab => ab.1.uint * ab.2.uint)).sum [MOD q] :=
      Nat.ModEq.add_right _ (Nat.ModEq.add_left acc (Nat.mod_modEq _ q))
    rw [hcong]
    congr 1
    omega

theorem dotProd_eval (q : ℕ) (hq : 0 < q) (hq32 : q ≤ 2 ^ 32)
    (row v : List Element) (hrow : ∀ x ∈ row, x.q = q ∧ x.uint < q)
    (hv : ∀ x ∈ v, x.uint < q) :
    dotProd q row v = ⟨q, natDot row v % q⟩ := by
  unfold dotProd natDot Element.zero
  rw [dot_fold_eval q hq hq32 _ 0 hq]
  · rw [Nat.zero_add]
  · rintro ⟨a, b⟩ hab
    obtain ⟨h1, h2⟩ := List.of_mem_zip hab
    exact ⟨(hrow a h1).1, (hrow a h1).2, hv b h2⟩

theorem sum_map_modEq {α : Type} (q : ℕ) (l : List α) (f g : α → ℕ)
    (h : ∀ x ∈ l, f x ≡ g x [MOD q]) :
    (l.map f).sum ≡ (l.map g).sum [MOD q] := by
  induction l with
  | nil => rfl
  | cons a t ih =>
    simp only [List.map_cons, List.sum_cons]
    exact (h a (List.mem_cons_self a t)).add
      (ih fun x hx => h x (List.mem_cons_of_mem _ hx))

theorem sum_map_intModEq {α : Type} (q : ℤ) (l : List α) (f g : α → ℤ)
    (h : ∀ x ∈ l, f x ≡ g x [ZMOD q]) :
    (l.map f).sum ≡ (l.map g).sum [ZMOD q] := by
  induction l with
  | nil => rfl
  | cons a t ih =>
    simp only [List.map_cons, List.sum_cons]
    exact (h a (List.mem_cons_self a t)).add
      (ih fun x hx => h x (List.mem_cons_of_mem _ hx))

theorem Matrix.add_single (x y : Element) (h : x.q = y.q) :
    Matrix.add? [[x]] [[y]] = some [[x.add y]] := by
  have hz : ∀ ab ∈ List.zip [x] [y], ab.1.q = ab.2.q := by
    intro ab hab
    simp only [List.zip_cons_cons, List.zip_nil_right, List.mem_singleton] at hab
    subst hab
    exact h
  exact Matrix.add_row [x] [y] rfl hz

theorem Element.add_mk (q a b : ℕ) (h : a + b < U64MOD) :
    Element.add ⟨q, a⟩ ⟨q, b⟩ = ⟨q, (a + b) % q⟩ := by
  unfold Element.add
  rw [wrap64_eq_of_lt h]

theorem Element.mul_mk (q a b : ℕ) (h : a * b < U64MOD) :
    Element.mul ⟨q, a⟩ ⟨q, b⟩ = ⟨q, a * b % q⟩ := by
  unfold Element.mul
  rw [wrap64_eq_of_lt h]

theorem Element.sub_mk (q a b : ℕ) (ha : a < q) (hb : b < q) :
    Element.sub ⟨q, a⟩ ⟨q, b⟩ = ⟨q, (a + q - b) % q⟩ :=
  Element.sub_eval ⟨q, a⟩ ⟨q, b⟩ ha hb

theorem encrypt_eval (a : List (List Element)) (q p n m : ℕ)
    (row s : List Element) (e0u ptu : ℕ)
    (hA : a = [row]) (hrowlen : row.length = n)
    (hrow : ∀ x ∈ row, x.q = q ∧ x.uint < q)
    (hq : 0 < q) (hq32 : q ≤ 2 ^ 32)
    (hp2 : 2 ≤ p) (hpq : p ≤ q)
    (hm : m = 1)
    (hs : s.length = n) (hsv : ∀ x ∈ s, x.uint < q)
    (he0v : e0u < q) (hptv : ptu < p) :
    encrypt ⟨a, q, p, n, m⟩ s [⟨q, e0u⟩] ⟨p, ptu⟩ =
      some ⟨q, (natDot row s + e0u + q / p * ptu) % q⟩ := by
  subst hA hm
  have hqmax : q < U64MAX := by
    unfold U64MAX
    omega
  have hflt : q / p < q := Nat.div_lt_self hq (by omega)
  have hptltq : ptu < q := by omega
  have hDlt := Nat.mod_lt (natDot row s) hq
  have hfb : q / p ≤ 2 ^ 32 - 1 := by omega
  have hpb : ptu ≤ 2 ^ 32 - 1 := by omega
  have hprod := Nat.mul_le_mul hfb hpb
  have hmulw : q / p * ptu < U64MOD := by
    unfold U64MOD
    omega
  have hsum2 := Nat.mod_lt (q / p * ptu) hq
  have hsum1 := Nat.mod_lt (natDot row s % q + e0u) hq
  unfold encrypt
  rw [if_pos ⟨hs, ⟨hptv, rfl⟩, by simp [check_error_length]⟩]
  dsimp only
  rw [Matrix.mulVec_single q row s (by rw [hrowlen, hs]),
    dotProd_eval q hq hq32 row s hrow hsv, Option.some_bind,
    Matrix.add_single ⟨q, natDot row s % q⟩ ⟨q, e0u⟩ rfl, Option.some_bind,
    Element.add_mk _ _ _ (by unfold U64MOD; omega),
    Element.fromVal_eq_some hqmax hflt, Option.some_bind,
    Element.fromVal_eq_some hqmax hptltq, Option.some_bind]
  unfold Matrix.scale
  simp only [List.map_cons, List.map_nil]
  rw [Element.mul_mk _ _ _ hmulw,
    Matrix.add_single ⟨q, (natDot row s % q + e0u) % q⟩
      ⟨q, q / p * ptu % q⟩ rfl, Option.some_bind,
    Element.add_mk _ _ _ (by unfold U64MOD; omega)]
  simp only [List.getD_cons_zero, Option.some.injEq, Element.mk.injEq, true_and]
  rw [Nat.mod_add_mod, Nat.add_mod_mod, Nat.add_assoc, Nat.mod_add_mod,
    ← Nat.add_assoc]

theorem decrypt_eval (a : List (List Element)) (q p n m : ℕ)
    (row s : List Element) (cu : ℕ)
    (hA : a = [row]) (hrowlen : row.length = n)
    (hrow : ∀ x ∈ row, x.q = q ∧ x.uint < q)
    (hq : 0 < q) (hq32 : q ≤ 2 ^ 32)
    (hp1 : 0 < p) (hpq : p ≤ q)
    (hs : s.length = n) (hsv : ∀ x ∈ s, x.uint < q)
    (hcv : cu < q) :
    decrypt ⟨a, q, p, n, m⟩ s ⟨q, cu⟩ =
      some ⟨p, roundDiv ((cu + q - natDot row s % q) % q * 2) q % p⟩ := by
  subst hA
  have hpmax : p < U64MAX := by
    unfold U64MAX
    omega
  have hDlt := Nat.mod_lt (natDot row s) hq
  unfold decrypt
  rw [if_pos ⟨hs, hcv, rfl⟩]
  dsimp only
  rw [Matrix.mulVec_single q row s (by rw [hrowlen, hs]),
    dotProd_eval q hq hq32 row s hrow hsv, Option.some_bind,
    Matrix.sub_single ⟨q, cu⟩ ⟨q, natDot row s % q⟩ rfl, Option.some_bind,
    Element.sub_mk _ _ _ hcv hDlt]
  simp only [List.getD_cons_zero]
  have hrv := Nat.mod_lt (cu + q - natDot row s % q) hq
  rw [wrap64_eq_of_lt (by unfold U64MOD; omega)]
  exact Element.fromVal_eq_some hpmax (Nat.mod_lt _ hp1)

theorem round_recover (q : ℕ) (hq : 0 < q) (heven : 2 ∣ q) (hq32 : q ≤ 2 ^ 32)
    (t : ℕ) (ht : t ≤ 2) (ε : ℤ) (hε : 4 * ε.natAbs < q) (r : ℕ)
    (hr : (r : ℤ) = (((q / 2 : ℕ) : ℤ) * t + ε) % (q : ℤ)) :
    roundDiv (r * 2) q % 2 = t % 2 := by
  obtain ⟨q2, rfl⟩ := heven
  have hq2 : 0 < q2 := by omega
  have hd2 : 2 * q2 / 2 = q2 := by omega
  rw [hd2] at hr
  push_cast at hr
  have hQpos : (0 : ℤ) < 2 * (q2 : ℤ) := by exact_mod_cast hq
  have hrlt : r < 2 * q2 := by
    have h1 := Int.emod_lt_of_pos ((q2 : ℤ) * t + ε) hQpos
    rw [← hr] at h1
    exact_mod_cast h1
  unfold roundDiv
  interval_cases t
  · -- selector total 0: the residual is the bare noise
    have hmod : ((q2 : ℤ) * (0 : ℕ) + ε) = ε := by push_cast; ring
    rw [hmod] at hr
    rcases Int.le_or_lt 0 ε with hpos | hneg
    · rw [Int.emod_eq_of_lt hpos (by omega)] at hr
      rw [Nat.div_eq_of_lt (by omega)]
    · have hsh : ε % (2 * (q2 : ℤ)) = ε + 2 * (q2 : ℤ) := by
        have h1 : ε % (2 * (q2 : ℤ)) = (ε + 2 * (q2 : ℤ) * 1) % (2 * (q2 : ℤ)) :=
          (Int.add_mul_emod_self_left ε (2 * (q2 : ℤ)) 1).symm
        rw [h1, Int.mul_one, Int.emod_eq_of_lt (by omega) (by omega)]
      rw [hsh] at hr
      rw [Nat.div_eq_of_lt_le (k := 2) (by omega) (by omega)]
  · -- selector total 1: the residual sits near q/2
    have hmod : ((q2 : ℤ) * (1 : ℕ) + ε) = (q2 : ℤ) + ε := by push_cast; ring
    rw [hmod] at hr
    rw [Int.emod_eq_of_lt (by omega) (by omega)] at hr
    rw [Nat.div_eq_of_lt_le (k := 1) (by omega) (by omega)]
  · -- selector total 2: the signal wraps back to the bare noise
    have hmod : ((q2 : ℤ) * (2 : ℕ) + ε) = ε + 2 * (q2 : ℤ) * 1 := by push_cast; ring
    rw [hmod, Int.add_mul_emod_self_left] at hr
    rcases Int.le_or_lt 0 ε with hpos | hneg
    · rw [Int.emod_eq_of_lt hpos (by omega)] at hr
      rw [Nat.div_eq_of_lt (by omega)]
    · have hsh : ε % (2 * (q2 : ℤ)) = ε + 2 * (q2 : ℤ) := by
        have h1 : ε % (2 * (q2 : ℤ)) = (ε + 2 * (q2 : ℤ) * 1) % (2 * (q2 : ℤ)) :=
          (Int.add_mul_emod_self_left ε (2 * (q2 : ℤ)) 1).symm
        rw [h1, Int.mul_one, Int.emod_eq_of_lt (by omega) (by omega)]
      rw [hsh] at hr
      rw [Nat.div_eq_of_lt_le (k := 2) (by omega) (by omega)]

theorem sum_map_add {α : Type} (l : List α) (f g : α → ℕ) :
    (l.map fun x => f x + g x).sum = (l.map f).sum + (l.map g).sum := by
  induction l with
  | nil => rfl
  | cons a t ih =>
    simp only [List.map_cons, List.sum_cons, ih]
    omega

theorem genErrorLoop_spec (P : Params) (hq : 6 ≤ P.q) (hqmax : P.q < U64MAX) :
    ∀ l : List ℕ, (∀ r ∈ l, r < 6) →
      ∃ es, genErrorLoop P l = some es ∧ es.length = l.length ∧
        ∀ x ∈ es, x.q = P.q ∧
          (x.uint = 0 ∨ x.uint = 1 ∨ x.uint = 2 ∨
           x.uint = P.q - 3 ∨ x.uint = P.q - 2 ∨ x.uint = P.q - 1) := by
  intro l
  induction l with
  | nil =>
    intro _
    exact ⟨[], rfl, rfl, by simp⟩
  | cons r rest ih =>
    intro hl
    have hr : r < 6 := hl r (List.mem_cons_self r rest)
    obtain ⟨es, hes, hlen, hmem⟩ := ih fun x hx => hl x (List.mem_cons_of_mem _ hx)
    refine ⟨Element.sub ⟨P.q, r⟩ ⟨P.q, 3⟩ :: es, ?_, by simp [hlen], ?_⟩
    · unfold genErrorLoop
      rw [Element.fromVal_eq_some hqmax (by omega), Option.some_bind,
        Element.fromVal_eq_some hqmax (by omega), Option.some_bind, hes,
        Option.some_bind]
    · intro x hx
      rcases List.mem_cons.mp hx with hx1 | hx2
      · subst hx1
        rw [Element.sub_mk P.q r 3 (by omega) (by omega)]
        refine ⟨rfl, ?_⟩
        dsimp only
        rcases Nat.lt_or_ge r 3 with h3 | h3
        · rw [Nat.mod_eq_of_lt (by omega)]
          omega
        · have hsh : r + P.q - 3 = P.q + (r - 3) := by omega
          rw [hsh, Nat.add_mod_left, Nat.mod_eq_of_lt (by omega)]
          omega
      · exact hmem x hx2

theorem zipWith_self {α β : Type} (f : α → α → β) (l : List α) :
    List.zipWith f l l = l.map (fun x => f x x) := by
  induction l with
  | nil => rfl
  | cons a t ih => simp only [List.zipWith_cons_cons, List.map_cons, ih]

theorem mem_zip_map_self {α β : Type} (g : α → β) (l : List α) :
    ∀ ab ∈ List.zip (l.map g) l, ab.1 = g ab.2 ∧ ab.2 ∈ l := by
  induction l with
  | nil =>
    intro ab hab
    simp at hab
  | cons x t ih =>
    intro ab hab
    simp only [List.map_cons, List.zip_cons_cons, List.mem_cons] at hab
    rcases hab with h | h
    · subst h
      exact ⟨rfl, List.mem_cons_self x t⟩
    · obtain ⟨h1, h2⟩ := ih ab h
      exact ⟨h1, List.mem_cons_of_mem _ h2⟩

theorem natDot_scaled (q k : ℕ) :
    ∀ w row s : List Element, w.length = row.length →
      (∀ ab ∈ List.zip w row, ab.1.uint ≡ k * ab.2.uint [MOD q]) →
      natDot w s ≡ k * natDot row s [MOD q] := by
  intro w
  induction w with
  | nil =>
    intro row s hlen _
    have hrow : row = [] := List.length_eq_zero.mp hlen.symm
    subst hrow
    simp only [natDot, List.zip_nil_left, List.zip_nil_right, List.map_nil,
      List.sum_nil, Nat.mul_zero]
    rfl
  | cons wx w' ih =>
    intro row s hlen hz
    cases row with
    | nil => simp at hlen
    | cons ax row' =>
      cases s with
      | nil =>
        simp only [natDot, List.zip_nil_left, List.zip_nil_right, List.map_nil,
          List.sum_nil, Nat.mul_zero]
        rfl
      | cons b s' =>
        have h1 : wx.uint * b.uint ≡ k * (ax.uint * b.uint) [MOD q] := by
          have h2 := (hz (wx, ax) (by simp)).mul_right b.uint
          have h3 : k * ax.uint * b.uint = k * (ax.uint * b.uint) := by ring
          rw [h3] at h2
          exact h2
        have h4 := ih row' s' (by simpa using hlen)
          (fun ab hab => hz ab (List.mem_cons_of_mem _ hab))
        have h5 : natDot (wx :: w') (b :: s') =
            wx.uint * b.uint + natDot w' s' := by
          simp [natDot]
        have h6 : natDot (ax :: row') (b :: s') =
            ax.uint * b.uint + natDot row' s' := by
          simp [natDot]
        rw [h5, h6, Nat.mul_add]
        exact h1.add h4

theorem natmod_int_modEq (q a : ℕ) :
    ((a % q : ℕ) : ℤ) ≡ (a : ℤ) [ZMOD (q : ℤ)] := by
  unfold Int.ModEq
  rw [Int.natCast_mod, Int.emod_emod_of_dvd _ dvd_rfl]

theorem residual_int (q a b : ℕ) (hb : b ≤ a + q) :
    (((a + q - b) % q : ℕ) : ℤ) = ((a : ℤ) - b) % (q : ℤ) := by
  rw [Int.natCast_mod, Nat.cast_sub hb]
  push_cast
  have h1 : (a : ℤ) + q - b = (a - b) + q * 1 := by ring
  rw [h1, Int.add_mul_emod_self_left]

/-! ### Claims -/

/-- C3: `encrypt` validates `secret.len == n`, `error.len == m` and the
plaintext modulus (and range) against `p`, failing on any mismatch; when
the checks hold, with `m = 1`, secret and error entries mod `q`, it returns
the single ring element `(A·secret)[0] + error[0] + ⌊q/p⌋·plaintext.value`
computed mod `q`.  (Parameter validity from spec section 3 — `p ≤ q`, a
non-degenerate plaintext modulus, and the overflow margin `q ≤ 2^32` — is
assumed.) -/
theorem C3_encrypt_spec (P : Params) (row s e : List Element) (pt : Element)
    (hA : P.a = [row]) (hrowlen : row.length = P.n)
    (hrow : ∀ x ∈ row, x.q = P.q ∧ x.uint < P.q)
    (hq : 0 < P.q) (hq32 : P.q ≤ 2 ^ 32) (hp2 : 2 ≤ P.p) (hpq : P.p ≤ P.q)
    (hm : P.m = 1)
    (hsv : ∀ x ∈ s, x.uint < P.q)
    (hev : ∀ x ∈ e, x.q = P.q ∧ x.uint < P.q) :
    (¬ (check_secret_length P s ∧ check_plaintext_mod P pt ∧
        check_error_length P e) → encrypt P s e pt = none) ∧
    ((check_secret_length P s ∧ check_plaintext_mod P pt ∧
        check_error_length P e) →
      encrypt P s e pt = some ⟨P.q,
        (natDot row s + (e.headD (Element.zero P.q)).uint +
          P.q / P.p * pt.uint) % P.q⟩) := by
  constructor
  · intro hneg
    unfold encrypt
    rw [if_neg hneg]
  · rintro ⟨h1, ⟨h2a, h2b⟩, h3⟩
    have h3' : e.length = 1 := by
      have : e.length = P.m := h3
      omega
    obtain ⟨e0, rfl⟩ : ∃ e0, e = [e0] := by
      cases e with
      | nil => simp at h3'
      | cons a t =>
        cases t with
        | nil => exact ⟨a, rfl⟩
        | cons b u => simp at h3'
    obtain ⟨he0q, he0v⟩ := hev e0 (List.mem_singleton.mpr rfl)
    obtain ⟨e0q, e0u⟩ := e0
    obtain ⟨ptq, ptu⟩ := pt
    have he0q' : e0q = P.q := he0q
    have hptq' : ptq = P.p := h2b
    subst he0q' hptq'
    obtain ⟨a, q, p, n, m⟩ := P
    exact encrypt_eval a q p n m row s e0u ptu hA hrowlen hrow hq hq32 hp2 hpq
      hm h1 hsv he0v h2a

theorem C3_witness :
    encrypt ⟨[[⟨12, 3⟩]], 12, 2, 1, 1⟩ [⟨12, 2⟩] [⟨12, 1⟩] ⟨2, 1⟩ =
      some ⟨12, (natDot [⟨12, 3⟩] [⟨12, 2⟩] +
        ([(⟨12, 1⟩ : Element)].headD (Element.zero 12)).uint + 12 / 2 * 1) % 12⟩ ∧
    encrypt ⟨[[⟨12, 3⟩]], 12, 2, 1, 1⟩ [⟨12, 2⟩, ⟨12, 0⟩] [⟨12, 1⟩] ⟨2, 1⟩ =
      none :=
  ⟨(C3_encrypt_spec ⟨[[⟨12, 3⟩]], 12, 2, 1, 1⟩ [⟨12, 3⟩] [⟨12, 2⟩] [⟨12, 1⟩]
      ⟨2, 1⟩ rfl (by decide) (by decide) (by decide) (by decide) (by decide)
      (by decide) rfl (by decide) (by decide)).2 (by decide),
   (C3_encrypt_spec ⟨[[⟨12, 3⟩]], 12, 2, 1, 1⟩ [⟨12, 3⟩] [⟨12, 2⟩, ⟨12, 0⟩]
      [⟨12, 1⟩] ⟨2, 1⟩ rfl (by decide) (by decide) (by decide) (by decide)
      (by decide) (by decide) rfl (by decide) (by decide)).1 (by decide)⟩

/-- C4 as stated is false on the code: `decrypt` rescales the residual with
the hard-coded factor 2, not the plaintext modulus `p`.  With `q = 30`,
`p = 3`, `A = [[0]]`, secret `[0]` and ciphertext `20` (residual `20`), the
code returns `round(20·2/30) mod 3 = 1`, while the claim prescribes
`round(20·3/30) mod 3 = 2`. -/
theorem C4_counterexample :
    decrypt ⟨[[⟨30, 0⟩]], 30, 3, 1, 1⟩ [⟨30, 0⟩] ⟨30, 20⟩ = some ⟨3, 1⟩ ∧
    claimedRescale 20 3 30 = 2 ∧
    decrypt ⟨[[⟨30, 0⟩]], 30, 3, 1, 1⟩ [⟨30, 0⟩] ⟨30, 20⟩ ≠
      some ⟨3, claimedRescale 20 3 30⟩ := by decide

/-- C4 (amended): for `m = 1` parameters, `decrypt` computes the residual
`r = ciphertext − (A·secret)[0]` by ring subtraction mod `q` and returns the
element mod `p` whose value is round-to-nearest(`r · 2 / q`) reduced mod
`p` — the hard-coded factor 2 coincides with `p` only when `p = 2`. -/
theorem C4_decrypt_spec (P : Params) (row s : List Element) (c : Element)
    (hA : P.a = [row]) (hrowlen : row.length = P.n)
    (hrow : ∀ x ∈ row, x.q = P.q ∧ x.uint < P.q)
    (hq : 0 < P.q) (hq32 : P.q ≤ 2 ^ 32)
    (hp1 : 0 < P.p) (hpq : P.p ≤ P.q)
    (hs : s.length = P.n) (hsv : ∀ x ∈ s, x.uint < P.q)
    (hcq : c.q = P.q) (hcv : c.uint < P.q) :
    decrypt P s c =
      some ⟨P.p,
        roundDiv ((c.uint + P.q - natDot row s % P.q) % P.q * 2) P.q % P.p⟩ := by
  obtain ⟨cq, cu⟩ := c
  have hcq' : cq = P.q := hcq
  subst hcq'
  obtain ⟨a, q, p, n, m⟩ := P
  exact decrypt_eval a q p n m row s cu hA hrowlen hrow hq hq32 hp1 hpq hs hsv
    hcv

theorem C4_witness :
    decrypt ⟨[[⟨30, 0⟩]], 30, 3, 1, 1⟩ [⟨30, 0⟩] ⟨30, 20⟩ =
      some ⟨3, roundDiv ((20 + 30 - natDot [⟨30, 0⟩] [⟨30, 0⟩] % 30) % 30 * 2)
        30 % 3⟩ :=
  C4_decrypt_spec ⟨[[⟨30, 0⟩]], 30, 3, 1, 1⟩ [⟨30, 0⟩] [⟨30, 0⟩] ⟨30, 20⟩ rfl
    (by decide) (by decide) (by decide) (by decide) (by decide) (by decide)
    (by decide) (by decide) (by decide) (by decide)

/-- C7 as stated is false on the code: for moduli admitted by
`Element::from` that exceed `2^32`, the 64-bit product wraps before the
reduction.  At `q = 2^63 + 1` and `a = b = 2^32`, the exact value of
`a·b mod q` is `2^63 − 1`, but the wrapped computation yields 0 (in a debug
build the same multiplication aborts on overflow, so the exact value is not
returned either way). -/
theorem C7_counterexample :
    Element.mul ⟨9223372036854775809, 4294967296⟩
        ⟨9223372036854775809, 4294967296⟩ ≠
      ⟨9223372036854775809, 4294967296 * 4294967296 % 9223372036854775809⟩ := by
  decide

/-- C7 (amended): for equal-modulus elements with values in `[0, q)`,
addition and multiplication return the exact mathematical sum and product
reduced mod `q`, provided the exact sum and product fit in 64 bits (the
overflow margin that spec section 3 demands of the modulus). -/
theorem C7_modular_arithmetic (q : ℕ) (a b : Element)
    (haq : a.q = q) (hbq : b.q = q) (hqmax : q < U64MAX)
    (hav : a.uint < q) (hbv : b.uint < q)
    (hadd : a.uint + b.uint < U64MOD) (hmul : a.uint * b.uint < U64MOD) :
    a.add b = ⟨q, (a.uint + b.uint) % q⟩ ∧
    a.mul b = ⟨q, (a.uint * b.uint) % q⟩ := by
  subst haq
  exact ⟨Element.add_eval a b hadd, Element.mul_eval a b hmul⟩

theorem C7_witness :
    Element.add ⟨101, 3⟩ ⟨101, 5⟩ = ⟨101, (3 + 5) % 101⟩ ∧
    Element.mul ⟨101, 3⟩ ⟨101, 5⟩ = ⟨101, 3 * 5 % 101⟩ :=
  C7_modular_arithmetic 101 ⟨101, 3⟩ ⟨101, 5⟩ rfl rfl (by decide) (by decide)
    (by decide) (by decide) (by decide)

/-- C8 as stated is false on the code: the draw `0` out of `[0, 6)` is
re-centred to `0 − 3 = −3 mod q`, a value the claimed set
`{0, 1, 2, q−2, q−1}` does not contain.  With the reference modulus
`q = 3329` the produced value is `3326 = q − 3`. -/
theorem C8_counterexample :
    gen_error_vec ⟨[], 3329, 2, 512, 1⟩ (fun _ => 0) = some [⟨3329, 3326⟩] ∧
    ¬ (3326 = 0 ∨ 3326 = 1 ∨ 3326 = 2 ∨ 3326 = 3329 - 2 ∨ 3326 = 3329 - 1) := by
  decide

/-- C8 (amended): `gen_error_vec` returns exactly `m` elements of modulus
`q`, and for every outcome of the uniform draws each value lies in
`{−3, …, 2}` re-centred at zero mod `q`, i.e. in
`{0, 1, 2, q−3, q−2, q−1}` (the code subtracts `half_sample_space = 3` from
a draw in `[0, 6)`). -/
theorem C8_gen_error_vec (P : Params) (draws : ℕ → ℕ)
    (h6 : ∀ i, draws i < 6) (hq : 6 ≤ P.q) (hqmax : P.q < U64MAX) :
    ∃ es, gen_error_vec P draws = some es ∧ es.length = P.m ∧
      ∀ x ∈ es, x.q = P.q ∧
        (x.uint = 0 ∨ x.uint = 1 ∨ x.uint = 2 ∨
         x.uint = P.q - 3 ∨ x.uint = P.q - 2 ∨ x.uint = P.q - 1) := by
  obtain ⟨es, hes, hlen, hmem⟩ :=
    genErrorLoop_spec P hq hqmax ((List.range P.m).map draws)
      (by
        intro r hr
        obtain ⟨i, -, rfl⟩ := List.mem_map.mp hr
        exact h6 i)
  exact ⟨es, hes, by simpa using hlen, hmem⟩

theorem C8_witness :
    ∃ es, gen_error_vec ⟨[], 3329, 2, 512, 1⟩ (fun _ => 5) = some es ∧
      es.length = 1 ∧
      ∀ x ∈ es, x.q = 3329 ∧
        (x.uint = 0 ∨ x.uint = 1 ∨ x.uint = 2 ∨
         x.uint = 3329 - 3 ∨ x.uint = 3329 - 2 ∨ x.uint = 3329 - 1) :=
  C8_gen_error_vec ⟨[], 3329, 2, 512, 1⟩ (fun _ => 5)
    (fun i => (by decide : (5 : ℕ) < 6)) (by decide) (by decide)

/-- C9: each listed precondition violation is a fatal failure —
`Element::from(q, v)` fails for `v ≥ q`, `encrypt` fails when the secret
length differs from `n`, and `query` fails when `idx ≥ db_size`. -/
theorem C9_boundary_failures :
    (∀ q v : ℕ, q ≤ v → Element.fromVal q v = none) ∧
    (∀ (P : Params) (s e : List Element) (pt : Element), s.length ≠ P.n →
      encrypt P s e pt = none) ∧
    (∀ (P : Params) (idx : ℕ) (s : List Element) (db_size : ℕ)
        (errs : ℕ → List Element), db_size ≤ idx →
      query P idx s db_size errs = none) := by
  refine ⟨fun q v hv => Element.fromVal_eq_none hv, ?_, ?_⟩
  · intro P s e pt hlen
    unfold encrypt
    rw [if_neg]
    rintro ⟨h1, -⟩
    exact hlen h1
  · intro P idx s db_size errs hidx
    unfold query
    rw [if_neg]
    omega

theorem C9_witness :
    Element.fromVal 5 7 = none ∧
    encrypt ⟨[[⟨12, 3⟩]], 12, 2, 1, 1⟩ [] [⟨12, 1⟩] ⟨2, 1⟩ = none ∧
    query ⟨[[⟨12, 3⟩]], 12, 2, 1, 1⟩ 3 [⟨12, 2⟩] 2 (fun _ => []) = none :=
  ⟨C9_boundary_failures.1 5 7 (by decide),
   C9_boundary_failures.2.1 ⟨[[⟨12, 3⟩]], 12, 2, 1, 1⟩ [] [⟨12, 1⟩] ⟨2, 1⟩
     (by decide),
   C9_boundary_failures.2.2 ⟨[[⟨12, 3⟩]], 12, 2, 1, 1⟩ 3 [⟨12, 2⟩] 2
     (fun _ => []) (by decide)⟩

/-- C10 as stated is false on one point: an add or multiply that involves
the invalid modulus-0 element and a partner of a different (nonzero)
modulus aborts on the `assert_eq!(self.q, rhs.q)` precondition — a
precondition failure, not a modulo-by-zero. -/
theorem C10_counterexample :
    Element.new 0 = ⟨0, 0⟩ ∧
    Element.add? (Element.new 0) ⟨5, 1⟩ = .error .modulusMismatch ∧
    Element.add? (Element.new 0) ⟨5, 1⟩ ≠ .error .moduloByZero := by
  refine ⟨rfl, rfl, fun h => ?_⟩
  have h2 : ArithError.modulusMismatch = ArithError.moduloByZero := by
    have h1 : Element.add? (Element.new 0) ⟨5, 1⟩ = .error .modulusMismatch :=
      rfl
    exact Except.error.inj (h1.symm.trans h)
  exact ArithError.noConfusion h2

/-- C10 (amended): `Element::new(q)` and `Element::zero(q)` perform no
validation — for `q = 0` they return the element `⟨0, 0⟩`, violating the
invariant `value < modulus`; a subsequent add or multiply whose other
operand also has modulus 0 passes the modulus-equality precondition and
aborts with a modulo-by-zero, while one whose other operand has a nonzero
modulus aborts on the precondition check instead. -/
theorem C10_unchecked_constructors :
    Element.new 0 = ⟨0, 0⟩ ∧ Element.zero 0 = ⟨0, 0⟩ ∧
    ¬ (Element.new 0).uint < (Element.new 0).q ∧
    (∀ b : Element, b.q = 0 →
      Element.add? (Element.new 0) b = .error .moduloByZero ∧
      Element.mul? (Element.new 0) b = .error .moduloByZero) ∧
    (∀ b : Element, b.q ≠ 0 →
      Element.add? (Element.new 0) b = .error .modulusMismatch ∧
      Element.mul? (Element.new 0) b = .error .modulusMismatch) := by
  refine ⟨rfl, rfl, by simp [Element.new], ?_, ?_⟩
  · intro b hb
    have h0 : ¬ (Element.new 0).q ≠ b.q := by simp [Element.new, hb]
    constructor
    · unfold Element.add?
      rw [if_neg h0, if_pos (show (Element.new 0).q = 0 from rfl)]
    · unfold Element.mul?
      rw [if_neg h0, if_pos (show (Element.new 0).q = 0 from rfl)]
  · intro b hb
    have h0 : (Element.new 0).q ≠ b.q := by simp [Element.new, Ne.symm hb]
    constructor
    · unfold Element.add?
      rw [if_pos h0]
    · unfold Element.mul?
      rw [if_pos h0]

theorem C10_witness :
    (Element.add? (Element.new 0) ⟨0, 7⟩ = .error .moduloByZero ∧
     Element.mul? (Element.new 0) ⟨0, 7⟩ = .error .moduloByZero) ∧
    (Element.add? (Element.new 0) ⟨5, 1⟩ = .error .modulusMismatch ∧
     Element.mul? (Element.new 0) ⟨5, 1⟩ = .error .modulusMismatch) :=
  ⟨C10_unchecked_constructors.2.2.2.1 ⟨0, 7⟩ rfl,
   C10_unchecked_constructors.2.2.2.2 ⟨5, 1⟩ (by decide)⟩

/-- C2 as stated is false on the code for odd moduli: with `q = 13`,
`p = 2`, `A = [[0]]`, secret `[0]`, fresh error elements `12 = −1 mod 13`
and `11 = −2 mod 13` (combined noise magnitude `3 < 13/(2·2)`), and
plaintext bits `b0 = b1 = 1`, the summed ciphertext decrypts (under the
doubled `A`) to 1 instead of `(1 + 1) mod 2 = 0`: the flooring in the
scaling `⌊q/2⌋` adds a signal deficit the claimed noise budget does not
cover. -/
theorem C2_counterexample :
    encrypt ⟨[[⟨13, 0⟩]], 13, 2, 1, 1⟩ [⟨13, 0⟩] [⟨13, 12⟩] ⟨2, 1⟩ =
      some ⟨13, 5⟩ ∧
    encrypt ⟨[[⟨13, 0⟩]], 13, 2, 1, 1⟩ [⟨13, 0⟩] [⟨13, 11⟩] ⟨2, 1⟩ =
      some ⟨13, 4⟩ ∧
    ((12 : ℕ) : ℤ) = (-1) % (13 : ℤ) ∧
    ((11 : ℕ) : ℤ) = (-2) % (13 : ℤ) ∧
    4 * ((-1) + (-2) : ℤ).natAbs < 13 ∧
    Matrix.add? [[⟨13, 0⟩]] [[⟨13, 0⟩]] = some [[⟨13, 0⟩]] ∧
    decrypt ⟨[[⟨13, 0⟩]], 13, 2, 1, 1⟩ [⟨13, 0⟩]
      (Element.add ⟨13, 5⟩ ⟨13, 4⟩) = some ⟨2, 1⟩ ∧
    (⟨2, 1⟩ : Element) ≠ ⟨2, (1 + 1) % 2⟩ := by
  decide

/-- C2 (amended): for `m = 1` parameters with `p = 2` and an even modulus
(within the spec's overflow margin `q ≤ 2^32`), plaintext bits `b0, b1`,
and fresh error elements encoding integer noises `ε0, ε1` with combined
magnitude below `q/(2p)` (that is, `4·|ε0 + ε1| < q`): `decrypt`, called
with `params.A` replaced by the ring sum `A + A` on the ring sum of the two
ciphertexts, returns `(b0 + b1) mod p`.  For odd `q` the statement fails
within the claimed budget (see the counterexample). -/
theorem C2_homomorphic_add (a : List (List Element)) (q p n m : ℕ)
    (row A2row s : List Element) (e0u e1u b0 b1 : ℕ) (ε0 ε1 : ℤ)
    (c0 c1 : Element)
    (hA : a = [row]) (hrowlen : row.length = n)
    (hrow : ∀ x ∈ row, x.q = q ∧ x.uint < q)
    (hq : 0 < q) (heven : 2 ∣ q) (hq32 : q ≤ 2 ^ 32)
    (hp : p = 2) (hm : m = 1)
    (hs : s.length = n) (hsv : ∀ x ∈ s, x.uint < q)
    (hb0 : b0 < 2) (hb1 : b1 < 2)
    (he0 : (e0u : ℤ) = ε0 % (q : ℤ)) (he1 : (e1u : ℤ) = ε1 % (q : ℤ))
    (hnoise : 4 * (ε0 + ε1).natAbs < q)
    (hA2 : Matrix.add? a a = some [A2row])
    (hc0 : encrypt ⟨a, q, p, n, m⟩ s [⟨q, e0u⟩] ⟨p, b0⟩ = some c0)
    (hc1 : encrypt ⟨a, q, p, n, m⟩ s [⟨q, e1u⟩] ⟨p, b1⟩ = some c1) :
    decrypt ⟨[A2row], q, p, n, m⟩ s (c0.add c1) = some ⟨p, (b0 + b1) % p⟩ := by
  subst hA hp hm
  have hq2 : 2 ≤ q := Nat.le_of_dvd hq heven
  have hqz : (q : ℤ) ≠ 0 := by exact_mod_cast hq.ne'
  have hqzpos : (0 : ℤ) < q := by exact_mod_cast hq
  have he0lt : e0u < q := by
    have h1 := Int.emod_nonneg ε0 hqz
    have h2 := Int.emod_lt_of_pos ε0 hqzpos
    omega
  have he1lt : e1u < q := by
    have h1 := Int.emod_nonneg ε1 hqz
    have h2 := Int.emod_lt_of_pos ε1 hqzpos
    omega
  have hc0' := encrypt_eval [row] q 2 n 1 row s e0u b0 rfl hrowlen hrow hq hq32
    le_rfl hq2 rfl hs hsv he0lt hb0
  have hc1' := encrypt_eval [row] q 2 n 1 row s e1u b1 rfl hrowlen hrow hq hq32
    le_rfl hq2 rfl hs hsv he1lt hb1
  obtain rfl : c0 = ⟨q, (natDot row s + e0u + q / 2 * b0) % q⟩ :=
    Option.some.inj (hc0.symm.trans hc0')
  obtain rfl : c1 = ⟨q, (natDot row s + e1u + q / 2 * b1) % q⟩ :=
    Option.some.inj (hc1.symm.trans hc1')
  have hzipq : ∀ ab ∈ List.zip row row, ab.1.q = ab.2.q := by
    intro ab hab
    obtain ⟨h1, h2⟩ := List.of_mem_zip hab
    rw [(hrow _ h1).1, (hrow _ h2).1]
  obtain rfl : A2row = List.zipWith Element.add row row := by
    have h1 := Matrix.add_row row row rfl hzipq
    have h2 := hA2.symm.trans h1
    exact (List.cons.inj (Option.some.inj h2)).1
  rw [zipWith_self Element.add row]
  have hgmem : ∀ x ∈ row.map (fun x => Element.add x x),
      x.q = q ∧ x.uint < q := by
    intro x hx
    obtain ⟨y, hy, rfl⟩ := List.mem_map.mp hx
    obtain ⟨hyq, hyv⟩ := hrow y hy
    have hw : y.uint + y.uint < U64MOD := by
      unfold U64MOD
      omega
    rw [Element.add_eval y y hw]
    dsimp only
    rw [hyq]
    exact ⟨rfl, Nat.mod_lt _ hq⟩
  have hD2 : natDot (row.map (fun x => Element.add x x)) s ≡
      2 * natDot row s [MOD q] := by
    apply natDot_scaled q 2 (row.map (fun x => Element.add x x)) row s (by simp)
    intro ab hab
    obtain ⟨h1, h2⟩ := mem_zip_map_self (fun x => Element.add x x) row ab hab
    obtain ⟨hyq, hyv⟩ := hrow ab.2 h2
    rw [h1]
    have hw : ab.2.uint + ab.2.uint < U64MOD := by
      unfold U64MOD
      omega
    rw [Element.add_eval ab.2 ab.2 hw]
    dsimp only
    rw [hyq]
    have h3 : ab.2.uint + ab.2.uint = 2 * ab.2.uint := by omega
    rw [h3]
    exact Nat.mod_modEq _ q
  set V0 := (natDot row s + e0u + q / 2 * b0) % q with hV0def
  set V1 := (natDot row s + e1u + q / 2 * b1) % q with hV1def
  have hV0lt : V0 < q := Nat.mod_lt _ hq
  have hV1lt : V1 < q := Nat.mod_lt _ hq
  rw [Element.add_mk q V0 V1 (by unfold U64MOD; omega)]
  have hdec := decrypt_eval [row.map (fun x => Element.add x x)] q 2 n 1
    (row.map (fun x => Element.add x x)) s ((V0 + V1) % q) rfl
    (by simp [hrowlen]) hgmem hq hq32 (by omega) hq2 hs hsv (Nat.mod_lt _ hq)
  rw [hdec]
  have hD2lt := Nat.mod_lt (natDot (row.map (fun x => Element.add x x)) s) hq
  have hr : ((((V0 + V1) % q + q -
        natDot (row.map (fun x => Element.add x x)) s % q) % q : ℕ) : ℤ) =
      (((q / 2 : ℕ) : ℤ) * ((b0 + b1 : ℕ) : ℤ) + (ε0 + ε1)) % (q : ℤ) := by
    rw [residual_int q ((V0 + V1) % q)
      (natDot (row.map (fun x => Element.add x x)) s % q) (by omega)]
    have hCVi : (((V0 + V1) % q : ℕ) : ℤ) ≡
        (V0 : ℤ) + (V1 : ℤ) [ZMOD (q : ℤ)] := by
      have h1 := natmod_int_modEq q (V0 + V1)
      push_cast at h1
      exact h1
    have hV0i : ((V0 : ℕ) : ℤ) ≡
        (natDot row s : ℤ) + (e0u : ℤ) +
          ((q / 2 : ℕ) : ℤ) * (b0 : ℤ) [ZMOD (q : ℤ)] := by
      rw [hV0def]
      have h1 := natmod_int_modEq q (natDot row s + e0u + q / 2 * b0)
      push_cast at h1
      exact h1
    have hV1i : ((V1 : ℕ) : ℤ) ≡
        (natDot row s : ℤ) + (e1u : ℤ) +
          ((q / 2 : ℕ) : ℤ) * (b1 : ℤ) [ZMOD (q : ℤ)] := by
      rw [hV1def]
      have h1 := natmod_int_modEq q (natDot row s + e1u + q / 2 * b1)
      push_cast at h1
      exact h1
    have hD2i : ((natDot (row.map (fun x => Element.add x x)) s % q : ℕ) : ℤ) ≡
        2 * (natDot row s : ℤ) [ZMOD (q : ℤ)] := by
      have h1 := natmod_int_modEq q (natDot (row.map (fun x => Element.add x x)) s)
      have h2 := Int.natCast_modEq_iff.mpr hD2
      push_cast at h2
      exact h1.trans h2
    have hei : ((e0u : ℤ) + (e1u : ℤ)) ≡ ε0 + ε1 [ZMOD (q : ℤ)] := by
      rw [he0, he1]
      exact Int.ModEq.add (Int.emod_emod_of_dvd ε0 dvd_rfl)
        (Int.emod_emod_of_dvd ε1 dvd_rfl)
    have hchain : (((V0 + V1) % q : ℕ) : ℤ) -
        ((natDot (row.map (fun x => Element.add x x)) s % q : ℕ) : ℤ) ≡
        ((q / 2 : ℕ) : ℤ) * ((b0 + b1 : ℕ) : ℤ) + (ε0 + ε1) [ZMOD (q : ℤ)] := by
      have hs1 := (hCVi.trans (hV0i.add hV1i)).sub hD2i
      have he2 : (natDot row s : ℤ) + (e0u : ℤ) + ((q / 2 : ℕ) : ℤ) * (b0 : ℤ) +
          ((natDot row s : ℤ) + (e1u : ℤ) + ((q / 2 : ℕ) : ℤ) * (b1 : ℤ)) -
          2 * (natDot row s : ℤ) =
          ((q / 2 : ℕ) : ℤ) * ((b0 : ℤ) + (b1 : ℤ)) +
            ((e0u : ℤ) + (e1u : ℤ)) := by
        ring
      rw [he2] at hs1
      refine hs1.trans ?_
      have he3 : ((q / 2 : ℕ) : ℤ) * ((b0 + b1 : ℕ) : ℤ) =
          ((q / 2 : ℕ) : ℤ) * ((b0 : ℤ) + (b1 : ℤ)) := by
        push_cast
        ring
      rw [he3]
      exact Int.ModEq.add_left _ hei
    exact hchain
  have hfin := round_recover q hq heven hq32 (b0 + b1) (by omega) (ε0 + ε1)
    hnoise _ hr
  rw [hfin]

theorem C2_witness :
    decrypt ⟨[[⟨12, 10⟩]], 12, 2, 1, 1⟩ [⟨12, 7⟩]
      (Element.add ⟨12, 6⟩ ⟨12, 4⟩) = some ⟨2, (1 + 1) % 2⟩ :=
  C2_homomorphic_add [[⟨12, 5⟩]] 12 2 1 1 [⟨12, 5⟩] [⟨12, 10⟩] [⟨12, 7⟩]
    1 11 1 1 1 (-1) ⟨12, 6⟩ ⟨12, 4⟩ rfl (by decide) (by decide) (by decide)
    (by decide) (by decide) rfl rfl (by decide) (by decide) (by decide)
    (by decide) (by decide) (by decide) (by decide) (by decide) (by decide)
    (by decide)

theorem valp_nil (p : ℕ) : valp p [] = 0 := rfl

theorem valp_cons (p d : ℕ) (tl : List ℕ) :
    valp p (d :: tl) = d + p * valp p tl := rfl

theorem valp_replicate_zero (p : ℕ) : ∀ L, valp p (List.replicate L 0) = 0 := by
  intro L
  induction L with
  | zero => rfl
  | succ L ih => simp [List.replicate_succ, valp_cons, ih]

theorem getD_replicate_zero (L j : ℕ) :
    (List.replicate L (0 : ℕ)).getD j 0 = 0 := by
  induction L generalizing j with
  | zero => simp [List.getD]
  | succ L ih =>
    cases j with
    | zero => simp [List.replicate_succ]
    | succ j =>
      simp only [List.replicate_succ, List.getD_cons_succ]
      exact ih j

theorem getD_set_ne (l : List ℕ) :
    ∀ i j v : ℕ, i ≠ j → (l.set i v).getD j 0 = l.getD j 0 := by
  induction l with
  | nil => intro i j v _; rfl
  | cons x t ih =>
    intro i j v hij
    cases i with
    | zero =>
      cases j with
      | zero => exact absurd rfl hij
      | succ j => simp [List.set_cons_zero, List.getD_cons_succ]
    | succ i =>
      cases j with
      | zero => simp [List.set_cons_succ, List.getD_cons_zero]
      | succ j =>
        simp only [List.set_cons_succ, List.getD_cons_succ]
        exact ih i j v (by omega)

theorem valp_set (p : ℕ) (l : List ℕ) :
    ∀ i v : ℕ, i < l.length → l.getD i 0 = 0 →
      valp p (l.set i v) = valp p l + p ^ i * v := by
  induction l with
  | nil =>
    intro i v hi _
    simp at hi
  | cons x t ih =>
    intro i v hi h0
    cases i with
    | zero =>
      simp only [List.getD_cons_zero] at h0
      subst h0
      simp only [List.set_cons_zero, valp_cons, pow_zero, Nat.one_mul]
      omega
    | succ i =>
      simp only [List.getD_cons_succ] at h0
      simp only [List.set_cons_succ, valp_cons,
        ih i v (by simpa using hi) h0, pow_succ]
      ring

theorem digitsLoopAux_spec (p : ℕ) :
    ∀ (fuel n i : ℕ) (digits : List ℕ),
      digits.length - i < fuel →
      i ≤ digits.length →
      n < p ^ (digits.length - i) →
      (∀ j, i ≤ j → j < digits.length → digits.getD j 0 = 0) →
      ∃ ds, digitsLoopAux p fuel n i digits = some ds ∧
        ds.length = digits.length ∧ valp p ds = valp p digits + p ^ i * n := by
  intro fuel
  induction fuel with
  | zero =>
    intro n i digits hfuel _ _ _
    omega
  | succ fuel ih =>
    intro n i digits hfuel hi hn hz
    by_cases hn0 : n = 0
    · subst hn0
      refine ⟨digits, ?_, rfl, by omega⟩
      simp [digitsLoopAux]
    · have hLi : 1 ≤ digits.length - i := by
        by_contra hcon
        push_neg at hcon
        rw [Nat.lt_one_iff.mp hcon] at hn
        simp at hn
        omega
      have hilt : i < digits.length := by omega
      have hstep : digitsLoopAux p (fuel + 1) n i digits =
          digitsLoopAux p fuel (n / p) (i + 1) (digits.set i (n % p)) := by
        simp [digitsLoopAux, hn0, hilt]
      have hlen' : (digits.set i (n % p)).length = digits.length :=
        List.length_set digits i (n % p)
      have hrec := ih (n / p) (i + 1) (digits.set i (n % p))
        (by omega) (by omega)
        (by
          rw [hlen']
          have hsub : digits.length - i = (digits.length - (i + 1)) + 1 := by
            omega
          rw [hsub, pow_succ] at hn
          have hn2 : n < p * p ^ (digits.length - (i + 1)) := by
            rw [Nat.mul_comm p _]
            exact hn
          exact Nat.div_lt_of_lt_mul hn2)
        (by
          intro j hj1 hj2
          rw [getD_set_ne digits i j (n % p) (by omega)]
          exact hz j (by omega) (by rwa [hlen'] at hj2))
      obtain ⟨ds, heq, hlen2, hval⟩ := hrec
      refine ⟨ds, hstep.trans heq, by rw [hlen2, hlen'], ?_⟩
      rw [hval, valp_set p digits i (n % p) hilt
        (hz i le_rfl hilt)]
      have hmod := Nat.div_add_mod n p
      have hexp : p ^ (i + 1) = p ^ i * p := pow_succ p i
      calc valp p digits + p ^ i * (n % p) + p ^ (i + 1) * (n / p)
          = valp p digits + p ^ i * (n % p + p * (n / p)) := by
            rw [hexp]
            ring
        _ = valp p digits + p ^ i * n := by
            congr 1
            congr 1
            omega

theorem recomposeAcc_spec (p : ℕ) :
    ∀ (ds : List ℕ) (res r : ℕ),
      res + r * valp p ds < U64MOD → r * p ^ ds.length < U64MOD →
      recomposeAcc p ds res r = res + r * valp p ds := by
  intro ds
  induction ds with
  | nil =>
    intro res r _ _
    simp [recomposeAcc, valp_nil]
  | cons d tl ih =>
    intro res r h1 h2
    rw [valp_cons] at h1 ⊢
    have hsplit : r * (d + p * valp p tl) = r * d + r * p * valp p tl := by
      ring
    rw [hsplit] at h1 ⊢
    have hple : p ≤ p ^ (d :: tl).length := Nat.le_self_pow (by simp) p
    have hrp : r * p ≤ r * p ^ (d :: tl).length := Nat.mul_le_mul_left r hple
    have hrplt : r * p < U64MOD := by omega
    have hrd : r * d < U64MOD := by omega
    have hresrd : res + r * d < U64MOD := by omega
    show recomposeAcc p tl (wrap64 (res + wrap64 (r * d))) (wrap64 (r * p)) = _
    rw [wrap64_eq_of_lt hrd, wrap64_eq_of_lt hresrd, wrap64_eq_of_lt hrplt]
    have hlen : p ^ (d :: tl).length = p ^ tl.length * p := by
      simp [pow_succ]
    rw [ih (res + r * d) (r * p) (by rw [Nat.mul_assoc] at h1 ⊢; omega)
      (by rw [hlen] at h2; calc r * p * p ^ tl.length
            = r * (p ^ tl.length * p) := by ring
        _ < U64MOD := h2)]
    ring

/-- C6 as stated is false on the code: at `q = 2`, `p = 2`, `v = 1` the
digit buffer has `⌈log_2(q − 1)⌉ = ⌈log_2 1⌉ = 0` slots (the f64 value
`log(1.0) = 0.0` is exact), so writing the first digit of `v = 1` is an
out-of-bounds abort and no round trip happens.  The same under-allocation
occurs whenever `q − 1` is an exact power of `p` and `v = q − 1`. -/
theorem C6_counterexample :
    (Element.mk 2 1).decomposed 2 = none ∧
    ((Element.mk 2 1).decomposed 2).bind (Element.recompose 2 2) ≠
      some ⟨2, 1⟩ := by
  decide

/-- C6 (amended): for `2 ≤ p`, `q < u64::MAX` and `v < q`,
`decomposed` yields `⌈log_p(q − 1)⌉` digits, least-significant first, and
`recompose` returns the original element — provided `v` fits in those
digits, i.e. `v < p ^ ⌈log_p(q − 1)⌉` (all `v` except `v = q − 1` when
`q − 1` is an exact power of `p`; for that value the buffer is one digit
short and `decomposed` aborts), and the accumulator cannot overflow
(`p · (q − 1) < 2^64`). -/
theorem C6_roundtrip (q p v : ℕ) (hp : 2 ≤ p) (hq : q < U64MAX) (hv : v < q)
    (hfit : v < p ^ Nat.clog p (q - 1)) (hbound : p * (q - 1) < U64MOD) :
    ∃ ds, (Element.mk q v).decomposed p = some ds ∧
      ds.length = Nat.clog p (q - 1) ∧
      Element.recompose p q ds = some ⟨q, v⟩ := by
  have hdef : (Element.mk q v).decomposed p =
      digitsLoopAux p (Nat.clog p (q - 1) + 1) v 0
        (List.replicate (Nat.clog p (q - 1)) 0) := by
    unfold Element.decomposed
    dsimp only
    rw [ceilLog_eq_clog]
  obtain ⟨ds, heq, hlen, hval⟩ := digitsLoopAux_spec p
    (Nat.clog p (q - 1) + 1) v 0 (List.replicate (Nat.clog p (q - 1)) 0)
    (by simp) (by simp) (by simpa using hfit)
    (by
      intro j _ _
      exact getD_replicate_zero _ j)
  have hlen2 : ds.length = Nat.clog p (q - 1) := by simpa using hlen
  have hvalds : valp p ds = v := by
    rw [hval, valp_replicate_zero, pow_zero]
    omega
  refine ⟨ds, hdef.trans heq, hlen2, ?_⟩
  unfold Element.recompose
  have hpow : p ^ Nat.clog p (q - 1) < U64MOD := by
    rcases Nat.eq_zero_or_pos (Nat.clog p (q - 1)) with h0 | hLpos
    · rw [h0, pow_zero]
      unfold U64MOD
      omega
    · have hq1 : 2 ≤ q - 1 := by
        by_contra hcon
        push_neg at hcon
        have h1 : Nat.clog p (q - 1) = 0 :=
          Nat.clog_of_right_le_one (by omega) p
        omega
      have hplt := Nat.pow_pred_clog_lt_self (by omega : 1 < p)
        (by omega : 1 < q - 1)
      have hplt2 : p ^ (Nat.clog p (q - 1) - 1) < q - 1 := by
        simpa [Nat.pred_eq_sub_one] using hplt
      have hpowsplit : p ^ Nat.clog p (q - 1) =
          p ^ (Nat.clog p (q - 1) - 1) * p := by
        have h1 := pow_succ p (Nat.clog p (q - 1) - 1)
        rw [Nat.sub_add_cancel hLpos] at h1
        exact h1
      have hle : p ^ Nat.clog p (q - 1) ≤ p * (q - 1) := by
        rw [hpowsplit, Nat.mul_comm]
        exact Nat.mul_le_mul_left p (by omega)
      exact lt_of_le_of_lt hle hbound
  rw [recomposeAcc_spec p ds 0 1
    (by
      rw [Nat.zero_add, Nat.one_mul, hvalds]
      unfold U64MOD
      unfold U64MAX at hq
      omega)
    (by rw [Nat.one_mul, hlen2]; exact hpow)]
  rw [Nat.zero_add, Nat.one_mul, hvalds]
  exact Element.fromVal_eq_some hq hv

theorem C6_witness :
    ∃ ds, (Element.mk 101 100).decomposed 2 = some ds ∧
      ds.length = Nat.clog 2 100 ∧
      Element.recompose 2 101 ds = some ⟨101, 100⟩ :=
  C6_roundtrip 101 2 100 (by decide) (by decide) (by decide)
    (by rw [← ceilLog_eq_clog]; decide) (by decide)

theorem card_mod_filter (q v : ℕ) (_hq : 0 < q) (hv : v < q) :
    ∀ N, ((Finset.range N).filter (fun r => r % q = v)).card =
      (N + (q - 1 - v)) / q := by
  intro N
  induction N with
  | zero =>
    rw [Finset.range_zero, Finset.filter_empty, Finset.card_empty,
      Nat.zero_add, Nat.div_eq_of_lt (by omega)]
  | succ N ih =>
    rw [Finset.range_succ, Finset.filter_insert]
    have harith : N + 1 + (q - 1 - v) = (N + (q - 1 - v)) + 1 := by omega
    by_cases h : N % q = v
    · have hdvd : q ∣ (N + (q - 1 - v)) + 1 := by
        have hNm := Nat.div_add_mod N q
        refine ⟨N / q + 1, ?_⟩
        rw [Nat.mul_add, Nat.mul_one]
        omega
      rw [if_pos h, Finset.card_insert_of_not_mem (by simp), ih, harith,
        Nat.succ_div_of_dvd hdvd]
    · have hndvd : ¬ q ∣ (N + (q - 1 - v)) + 1 := by
        rintro ⟨c, hc⟩
        apply h
        have h2 : (N + q) % q = N % q := Nat.add_mod_right N q
        have h3 : N + q = v + q * c := by omega
        rw [← h2, h3, Nat.add_mul_mod_self_left, Nat.mod_eq_of_lt hv]
      rw [if_neg h, ih, harith, Nat.succ_div_of_not_dvd hndvd]

theorem card_mod_filter_Ico (q v a b : ℕ) (hq : 0 < q) (hv : v < q)
    (hab : a ≤ b) :
    ((Finset.Ico a b).filter (fun r => r % q = v)).card =
      (b + (q - 1 - v)) / q - (a + (q - 1 - v)) / q := by
  have hsplit : Finset.range b = Finset.range a ∪ Finset.Ico a b := by
    rw [Finset.range_eq_Ico,
      Finset.Ico_union_Ico_eq_Ico (Nat.zero_le a) hab]
  have hdisj : Disjoint (Finset.range a) (Finset.Ico a b) := by
    rw [Finset.range_eq_Ico]
    exact Finset.Ico_disjoint_Ico_consecutive 0 a b
  have hcard : ((Finset.range b).filter (fun r => r % q = v)).card =
      ((Finset.range a).filter (fun r => r % q = v)).card +
      ((Finset.Ico a b).filter (fun r => r % q = v)).card := by
    rw [hsplit, Finset.filter_union]
    exact Finset.card_union_of_disjoint (Finset.disjoint_filter_filter hdisj)
  have h1 := card_mod_filter q v hq hv b
  have h2 := card_mod_filter q v hq hv a
  have hmono : (a + (q - 1 - v)) / q ≤ (b + (q - 1 - v)) / q :=
    Nat.div_le_div_right (by omega)
  omega

theorem acceptedCount_eq (q v : ℕ) (hq : 0 < q) (hq32 : q ≤ 2 ^ 32)
    (hv : v < q) :
    acceptedCount q v =
      (U64MOD - 1 - rejection_min q) / q +
        (if v = rejection_min q then 1 else 0) := by
  have hqM : q ≤ U64MAX := by
    unfold U64MAX
    omega
  have htmod : rejection_min q = U64MAX % q := by
    unfold rejection_min
    exact (Nat.mod_eq_sub_mod hqM).symm
  have htlt : rejection_min q < q := by
    rw [htmod]
    exact Nat.mod_lt _ hq
  have hdm := Nat.div_add_mod U64MAX q
  set D := U64MAX / q with hD
  clear_value D
  clear hD
  have hM : U64MOD = q * D + rejection_min q + 1 := by
    rw [htmod]
    unfold U64MOD
    unfold U64MAX at hdm ⊢
    omega
  unfold acceptedCount
  rw [card_mod_filter_Ico q v (rejection_min q) U64MOD hq hv
    (by unfold U64MOD; omega)]
  have hRHS : U64MOD - 1 - rejection_min q = q * D := by omega
  rw [hRHS, Nat.mul_div_cancel_left _ hq]
  rcases Nat.lt_trichotomy v (rejection_min q) with hvt | hvt | hvt
  · have hA : (U64MOD + (q - 1 - v)) / q = D + 1 := by
      have e1 : U64MOD + (q - 1 - v) = (rejection_min q - v) + q * (D + 1) := by
        rw [Nat.mul_add, Nat.mul_one]
        omega
      rw [e1, Nat.add_mul_div_left _ _ hq,
        Nat.div_eq_of_lt (show rejection_min q - v < q by omega)]
      omega
    have hB : (rejection_min q + (q - 1 - v)) / q = 1 := by
      have e2 : rejection_min q + (q - 1 - v) =
          (rejection_min q - 1 - v) + q * 1 := by omega
      rw [e2, Nat.add_mul_div_left _ _ hq,
        Nat.div_eq_of_lt (show rejection_min q - 1 - v < q by omega)]
    rw [hA, hB, if_neg (by omega)]
    omega
  · have hA : (U64MOD + (q - 1 - v)) / q = D + 1 := by
      have e1 : U64MOD + (q - 1 - v) = (rejection_min q - v) + q * (D + 1) := by
        rw [Nat.mul_add, Nat.mul_one]
        omega
      rw [e1, Nat.add_mul_div_left _ _ hq,
        Nat.div_eq_of_lt (show rejection_min q - v < q by omega)]
      omega
    have hB : (rejection_min q + (q - 1 - v)) / q = 0 :=
      Nat.div_eq_of_lt (show rejection_min q + (q - 1 - v) < q by omega)
    rw [hA, hB, if_pos (by omega)]
    omega
  · have hA : (U64MOD + (q - 1 - v)) / q = D := by
      have e1 : U64MOD + (q - 1 - v) =
          (rejection_min q + q - v) + q * D := by omega
      rw [e1, Nat.add_mul_div_left _ _ hq,
        Nat.div_eq_of_lt (show rejection_min q + q - v < q by omega)]
      omega
    have hB : (rejection_min q + (q - 1 - v)) / q = 0 :=
      Nat.div_eq_of_lt (show rejection_min q + (q - 1 - v) < q by omega)
    rw [hA, hB, if_neg (by omega)]
    omega

/-- C5 as stated is false on the code: the sampling is not unbiased.  The
threshold `(u64::MAX − q) % q` is off by one from the debiasing threshold
`2^64 mod q`, so exactly one value — the threshold itself — is the
reduction of one more accepted draw than every other value.  At `q = 2`
the value 1 has `2^63` accepted preimages while the value 0 has
`2^63 − 1`. -/
theorem C5_counterexample : acceptedCount 2 1 ≠ acceptedCount 2 0 := by
  rw [acceptedCount_eq 2 1 (by decide) (by decide) (by decide),
    acceptedCount_eq 2 0 (by decide) (by decide) (by decide)]
  decide

/-- C5 (amended): for every modulus `0 < q ≤ 2^32`: `gen_uniform_rand`
rejects exactly the raw draws strictly below `(u64::MAX − q) % q`, every
accepted draw reduces to a value in `[0, q)`, and each value in `[0, q)`
is the reduction of exactly `⌊(2^64 − 1 − t)/q⌋` accepted draws — except
the threshold value `t = (u64::MAX − q) % q` itself, which receives one
extra draw.  The sampler is therefore near-uniform but biased by one draw
toward `t`, not unbiased as claimed. -/
theorem C5_rejection_sampling (q : ℕ) (hq : 0 < q) (hq32 : q ≤ 2 ^ 32) :
    (∀ r : ℕ, gen_uniform_rand_step q r = none ↔ r < rejection_min q) ∧
    (∀ r : ℕ, rejection_min q ≤ r →
      gen_uniform_rand_step q r = some ⟨q, r % q⟩ ∧ r % q < q) ∧
    (∀ v : ℕ, v < q → acceptedCount q v =
      (U64MOD - 1 - rejection_min q) / q +
        (if v = rejection_min q then 1 else 0)) := by
  have hqmax : q < U64MAX := by
    unfold U64MAX
    omega
  refine ⟨?_, ?_, fun v hv => acceptedCount_eq q v hq hq32 hv⟩
  · intro r
    unfold gen_uniform_rand_step
    by_cases h : rejection_min q ≤ r
    · rw [if_pos h, Element.fromVal_eq_some hqmax (Nat.mod_lt _ hq)]
      constructor
      · intro hcon
        exact Option.noConfusion hcon
      · intro hcon
        exact absurd hcon (Nat.not_lt.mpr h)
    · rw [if_neg h]
      constructor
      · intro _
        omega
      · intro _
        rfl
  · intro r hr
    unfold gen_uniform_rand_step
    rw [if_pos hr, Element.fromVal_eq_some hqmax (Nat.mod_lt _ hq)]
    exact ⟨rfl, Nat.mod_lt _ hq⟩

theorem C5_witness :
    (gen_uniform_rand_step 5 1 = none ↔ 1 < rejection_min 5) ∧
    (gen_uniform_rand_step 5 7 = some ⟨5, 7 % 5⟩ ∧ 7 % 5 < 5) ∧
    acceptedCount 5 2 = (U64MOD - 1 - rejection_min 5) / 5 +
      (if 2 = rejection_min 5 then 1 else 0) := by
  obtain ⟨h1, h2, h3⟩ := C5_rejection_sampling 5 (by decide) (by decide)
  exact ⟨h1 1, h2 7 (by decide), h3 2 (by decide)⟩

theorem sum_map_mul_const {α : Type} (l : List α) (c : ℕ) (f : α → ℕ) :
    (l.map fun x => c * f x).sum = c * (l.map f).sum := by
  induction l with
  | nil => simp
  | cons a t ih =>
    simp only [List.map_cons, List.sum_cons, ih, Nat.mul_add]

theorem sum_map_const {α : Type} (l : List α) (c : ℕ) :
    (l.map fun _ => c).sum = l.length * c := by
  induction l with
  | nil => simp
  | cons a t ih =>
    simp only [List.map_cons, List.sum_cons, ih, List.length_cons]
    ring

theorem mem_zip_zipWith (f : Element → Element → Element) :
    ∀ (w row : List Element) (ab : Element × Element),
      ab ∈ List.zip (List.zipWith f w row) row →
      ∃ a0 b0, ab.1 = f a0 b0 ∧ ab.2 = b0 ∧ (a0, b0) ∈ List.zip w row := by
  intro w
  induction w with
  | nil =>
    intro row ab hab
    simp at hab
  | cons a0 w' ih =>
    intro row ab hab
    cases row with
    | nil => simp at hab
    | cons b0 row' =>
      simp only [List.zipWith_cons_cons, List.zip_cons_cons,
        List.mem_cons] at hab
      rcases hab with h | h
      · subst h
        exact ⟨a0, b0, rfl, rfl, by simp⟩
      · obtain ⟨a1, b1, h1, h2, h3⟩ := ih row' ab h
        exact ⟨a1, b1, h1, h2, List.mem_cons_of_mem _ h3⟩

theorem chi_sum_zero (idx : ℕ) :
    ∀ (l : List Element) (i0 : ℕ), idx < i0 →
      (((l.enumFrom i0).filter (fun pr => pr.2.uint = 1)).map
        (fun pr => if pr.1 = idx then (1 : ℕ) else 0)).sum = 0 := by
  intro l
  induction l with
  | nil =>
    intro i0 _
    rfl
  | cons x rest ih =>
    intro i0 hlt
    rw [List.enumFrom_cons]
    by_cases hx : x.uint = 1
    · rw [List.filter_cons_of_pos (by simpa using hx), List.map_cons,
        List.sum_cons, if_neg (by omega), ih (i0 + 1) (by omega)]
    · rw [List.filter_cons_of_neg (by simpa using hx), ih (i0 + 1) (by omega)]

theorem chi_sum_main (idx : ℕ) :
    ∀ (l : List Element) (i0 : ℕ), i0 ≤ idx → idx - i0 < l.length →
      (((l.enumFrom i0).filter (fun pr => pr.2.uint = 1)).map
        (fun pr => if pr.1 = idx then (1 : ℕ) else 0)).sum =
      (if (l.getD (idx - i0) (Element.zero 0)).uint = 1 then 1 else 0) := by
  intro l
  induction l with
  | nil =>
    intro i0 _ hlt
    simp at hlt
  | cons x rest ih =>
    intro i0 hle hlt
    rw [List.enumFrom_cons]
    by_cases heq : i0 = idx
    · have hsub : idx - i0 = 0 := by omega
      rw [hsub, List.getD_cons_zero]
      by_cases hx : x.uint = 1
      · rw [List.filter_cons_of_pos (by simpa using hx), List.map_cons,
          List.sum_cons, if_pos heq, chi_sum_zero idx rest (i0 + 1) (by omega),
          if_pos hx]
      · rw [List.filter_cons_of_neg (by simpa using hx),
          chi_sum_zero idx rest (i0 + 1) (by omega), if_neg hx]
    · have hsub : idx - i0 = (idx - (i0 + 1)) + 1 := by omega
      have htail := ih (i0 + 1) (by omega) (by simp at hlt ⊢; omega)
      have hgetD : (x :: rest).getD (idx - i0) (Element.zero 0) =
          rest.getD (idx - (i0 + 1)) (Element.zero 0) := by
        rw [hsub, List.getD_cons_succ]
      rw [hgetD]
      by_cases hx : x.uint = 1
      · rw [List.filter_cons_of_pos (by simpa using hx), List.map_cons,
          List.sum_cons, if_neg heq, htail, Nat.zero_add]
      · rw [List.filter_cons_of_neg (by simpa using hx), htail]

theorem queryLoop_eval (q n : ℕ) (row s : List Element) (idx : ℕ)
    (errs : ℕ → List Element) (ev : ℕ → ℕ)
    (hrowlen : row.length = n) (hrow : ∀ x ∈ row, x.q = q ∧ x.uint < q)
    (hq : 0 < q) (hq2 : 2 ≤ q) (hq32 : q ≤ 2 ^ 32)
    (hs : s.length = n) (hsv : ∀ x ∈ s, x.uint < q)
    (herr : ∀ i, errs i = [⟨q, ev i⟩]) (hev : ∀ i, ev i < q) :
    ∀ l : List ℕ,
      queryLoop ⟨[row], q, 2, n, 1⟩ idx s errs l =
        some (l.map (fun i => (⟨q, (natDot row s + ev i +
          q / 2 * (if i = idx then 1 else 0)) % q⟩ : Element))) := by
  intro l
  induction l with
  | nil => rfl
  | cons i rest ih =>
    have hbit : (if i = idx then (1 : ℕ) else 0) < 2 := by
      split <;> omega
    simp only [queryLoop]
    rw [herr i,
      Element.fromVal_eq_some (by unfold U64MAX; omega) hbit, Option.some_bind,
      encrypt_eval [row] q 2 n 1 row s (ev i) (if i = idx then 1 else 0) rfl
        hrowlen hrow hq hq32 le_rfl hq2 rfl hs hsv (hev i) hbit,
      Option.some_bind, ih, Option.some_bind, List.map_cons]

theorem query_eval (q n : ℕ) (row s : List Element) (idx db_size : ℕ)
    (errs : ℕ → List Element) (ev : ℕ → ℕ)
    (hrowlen : row.length = n) (hrow : ∀ x ∈ row, x.q = q ∧ x.uint < q)
    (hq : 0 < q) (hq2 : 2 ≤ q) (hq32 : q ≤ 2 ^ 32)
    (hs : s.length = n) (hsv : ∀ x ∈ s, x.uint < q)
    (herr : ∀ i, errs i = [⟨q, ev i⟩]) (hev : ∀ i, ev i < q)
    (hidx : idx < db_size) :
    query ⟨[row], q, 2, n, 1⟩ idx s db_size errs =
      some ((List.range db_size).map (fun i => (⟨q, (natDot row s + ev i +
        q / 2 * (if i = idx then 1 else 0)) % q⟩ : Element))) := by
  unfold query
  rw [if_pos hidx,
    queryLoop_eval q n row s idx errs ev hrowlen hrow hq hq2 hq32 hs hsv
      herr hev (List.range db_size)]

theorem mem_left_zip {α β : Type} :
    ∀ (l1 : List α) (l2 : List β), l1.length = l2.length →
      ∀ x ∈ l1, ∃ y, (x, y) ∈ List.zip l1 l2 := by
  intro l1
  induction l1 with
  | nil =>
    intro l2 _ x hx
    simp at hx
  | cons a t ih =>
    intro l2 hlen x hx
    cases l2 with
    | nil => simp at hlen
    | cons b t2 =>
      rcases List.mem_cons.mp hx with h | h
      · subst h
        exact ⟨b, by simp⟩
      · obtain ⟨y, hy⟩ := ih t2 (by simpa using hlen) x h
        exact ⟨y, List.mem_cons_of_mem _ hy⟩

theorem answerLoop_eval (q n : ℕ) (row : List Element) (qs : List Element)
    (cv : ℕ → ℕ) (L : ℕ)
    (hrow : ∀ x ∈ row, x.q = q ∧ x.uint < q)
    (hq : 0 < q) (hq32 : q ≤ 2 ^ 32)
    (hqs : ∀ i, i < L → qs.get? i = some ⟨q, cv i⟩)
    (hcv : ∀ i, cv i < q) :
    ∀ (db : List Element) (i0 : ℕ) (w : List Element) (k u : ℕ),
      i0 + db.length ≤ L →
      w.length = row.length →
      (∀ ab ∈ List.zip w row, ab.1.q = q ∧ ab.1.uint < q ∧
        ab.1.uint ≡ k * ab.2.uint [MOD q]) →
      u < q →
      ∃ w' k' u',
        answerLoop ⟨[row], q, 2, n, 1⟩ qs db i0 [w] ⟨q, u⟩ =
          some ([w'], ⟨q, u'⟩) ∧
        w'.length = row.length ∧
        (∀ ab ∈ List.zip w' row, ab.1.q = q ∧ ab.1.uint < q ∧
          ab.1.uint ≡ k' * ab.2.uint [MOD q]) ∧
        u' < q ∧
        u' ≡ u + (((db.enumFrom i0).filter (fun pr => pr.2.uint = 1)).map
          (fun pr => cv pr.1)).sum [MOD q] ∧
        k' = k + ((db.enumFrom i0).filter (fun pr => pr.2.uint = 1)).length := by
  intro db
  induction db with
  | nil =>
    intro i0 w k u _ hwlen hw hu
    refine ⟨w, k, u, rfl, hwlen, hw, hu, ?_, by simp⟩
    simp only [List.enumFrom_nil, List.filter_nil, List.map_nil, List.sum_nil,
      Nat.add_zero]
    rfl
  | cons item rest ih =>
    intro i0 w k u hlen hwlen hw hu
    rw [List.enumFrom_cons]
    by_cases hbit : item.uint = 1
    · have hget := hqs i0 (by simp only [List.length_cons] at hlen; omega)
      have hqzip : ∀ ab ∈ List.zip w row, ab.1.q = ab.2.q := fun ab hab =>
        ((hw ab hab).1).trans ((hrow ab.2 (List.of_mem_zip hab).2).1).symm
      have hadd := Matrix.add_row w row hwlen hqzip
      have hstep : answerLoop ⟨[row], q, 2, n, 1⟩ qs (item :: rest) i0 [w]
          ⟨q, u⟩ = answerLoop ⟨[row], q, 2, n, 1⟩ qs rest (i0 + 1)
            [List.zipWith Element.add w row] ⟨q, (u + cv i0) % q⟩ := by
        simp only [answerLoop]
        rw [if_pos hbit]
        dsimp only
        rw [hget, Option.some_bind]
        dsimp only
        rw [hadd, Option.some_bind]
        rw [if_pos rfl,
          Element.add_mk q u (cv i0) (by have := hcv i0; unfold U64MOD; omega)]
      have hwlen2 : (List.zipWith Element.add w row).length = row.length := by
        rw [List.length_zipWith, hwlen, Nat.min_self]
      have hw2 : ∀ ab ∈ List.zip (List.zipWith Element.add w row) row,
          ab.1.q = q ∧ ab.1.uint < q ∧
          ab.1.uint ≡ (k + 1) * ab.2.uint [MOD q] := by
        intro ab hab
        obtain ⟨a0, b0, h1, h2, h3⟩ := mem_zip_zipWith Element.add w row ab hab
        obtain ⟨ha0q, ha0v, ha0m⟩ := hw (a0, b0) h3
        obtain ⟨hb0q, hb0v⟩ := hrow b0 (List.of_mem_zip h3).2
        have ha0v' : a0.uint < q := ha0v
        have hwr : a0.uint + b0.uint < U64MOD := by
          unfold U64MOD
          omega
        rw [h1, h2, Element.add_eval a0 b0 hwr]
        dsimp only
        rw [ha0q]
        refine ⟨rfl, Nat.mod_lt _ hq, ?_⟩
        have hcong : a0.uint + b0.uint ≡ k * b0.uint + b0.uint [MOD q] :=
          Nat.ModEq.add_right b0.uint ha0m
        have heq2 : k * b0.uint + b0.uint = (k + 1) * b0.uint := by ring
        rw [heq2] at hcong
        exact (Nat.mod_modEq _ q).trans hcong
      obtain ⟨w', k', u', hrun, hl, hwp, hup, husum, hkk⟩ :=
        ih (i0 + 1) (List.zipWith Element.add w row) (k + 1) ((u + cv i0) % q)
          (by simp only [List.length_cons] at hlen; omega) hwlen2 hw2
          (Nat.mod_lt _ hq)
      refine ⟨w', k', u', hstep.trans hrun, hl, hwp, hup, ?_, ?_⟩
      · rw [List.filter_cons_of_pos (by simpa using hbit), List.map_cons,
          List.sum_cons]
        refine husum.trans ?_
        have h5 : (u + cv i0) % q +
            (((rest.enumFrom (i0 + 1)).filter (fun pr => pr.2.uint = 1)).map
              (fun pr => cv pr.1)).sum ≡
            u + cv i0 +
            (((rest.enumFrom (i0 + 1)).filter (fun pr => pr.2.uint = 1)).map
              (fun pr => cv pr.1)).sum [MOD q] :=
          Nat.ModEq.add_right _ (Nat.mod_modEq _ q)
        have h6 : u + cv i0 +
            (((rest.enumFrom (i0 + 1)).filter (fun pr => pr.2.uint = 1)).map
              (fun pr => cv pr.1)).sum =
            u + (cv i0 +
              (((rest.enumFrom (i0 + 1)).filter (fun pr => pr.2.uint = 1)).map
                (fun pr => cv pr.1)).sum) := by
          ring
        rw [h6] at h5
        exact h5
      · rw [List.filter_cons_of_pos (by simpa using hbit), List.length_cons,
          hkk]
        omega
    · have hstep : answerLoop ⟨[row], q, 2, n, 1⟩ qs (item :: rest) i0 [w]
          ⟨q, u⟩ = answerLoop ⟨[row], q, 2, n, 1⟩ qs rest (i0 + 1) [w]
            ⟨q, u⟩ := by
        simp only [answerLoop]
        rw [if_neg hbit]
      obtain ⟨w', k', u', hrun, hl, hwp, hup, husum, hkk⟩ :=
        ih (i0 + 1) w k u (by simp only [List.length_cons] at hlen; omega)
          hwlen hw hu
      refine ⟨w', k', u', hstep.trans hrun, hl, hwp, hup, ?_, ?_⟩
      · rw [List.filter_cons_of_neg (by simpa using hbit)]
        exact husum
      · rw [List.filter_cons_of_neg (by simpa using hbit)]
        exact hkk

/-- C1 counterexample: at the odd modulus q = 13 (p = 2, n = m = 1, A = 0,
s = 0) the full pipeline query → answer → decrypt returns bit 0 for
db = [1, 1] at idx = 0, not db[0] = 1, even though every ciphertext carries
a fresh in-range error (-1 and -2, drawn from the code's {-3..2} range) and
the accumulated noise -3 is far inside the q/(2p) budget: the claim's
"recovers db[idx] with overwhelming probability given suitable parameters"
fails deterministically for odd q. -/
theorem C1_counterexample :
    ((12 : ℕ) : ℤ) = (-1 : ℤ) % (13 : ℤ) ∧
    ((11 : ℕ) : ℤ) = (-2 : ℤ) % (13 : ℤ) ∧
    4 * ((-1 : ℤ) + -2).natAbs < 13 ∧
    query ⟨[[⟨13, 0⟩]], 13, 2, 1, 1⟩ 0 [⟨13, 0⟩] 2
      (fun i => if i = 0 then [⟨13, 12⟩] else [⟨13, 11⟩]) =
      some [⟨13, 5⟩, ⟨13, 11⟩] ∧
    answer ⟨[[⟨13, 0⟩]], 13, 2, 1, 1⟩ [⟨13, 5⟩, ⟨13, 11⟩] [⟨2, 1⟩, ⟨2, 1⟩] =
      some ([[⟨13, 0⟩]], ⟨13, 3⟩) ∧
    decrypt ⟨[[⟨13, 0⟩]], 13, 2, 1, 1⟩ [⟨13, 0⟩] ⟨13, 3⟩ = some ⟨2, 0⟩ ∧
    some (⟨2, 0⟩ : Element) ≠
      some (([⟨2, 1⟩, ⟨2, 1⟩] : List Element).get ⟨0, by decide⟩) := by
  refine ⟨by decide, by decide, by decide, by decide, by decide, by decide, ?_⟩
  intro h
  exact absurd (Option.some.inj h) (by decide)

/-- C1 (corrected): end-to-end PIR correctness.  For p = 2, an even modulus
q within the overflow margin, a 1×n public matrix and database entries that
are bits mod 2: if each query ciphertext carries error `ev i` representing
an integer noise `εs i` mod q, and 4·|Σ noise over the 1-entries of the
database| < q, then query at idx, answer over the database, and decrypt
with A replaced by the accumulated matrix recover exactly db[idx].  (The
spec's unconditional claim is corrected: p = 2 is forced by the hard-coded
rescale factor and odd q fails inside the noise budget, see
`C1_counterexample`.) -/
theorem C1_pir_correctness (a : List (List Element)) (q p n m : ℕ)
    (row s db : List Element) (idx : ℕ)
    (errs : ℕ → List Element) (ev : ℕ → ℕ) (εs : ℕ → ℤ)
    (hA : a = [row]) (hrowlen : row.length = n)
    (hrow : ∀ x ∈ row, x.q = q ∧ x.uint < q)
    (hq : 0 < q) (heven : 2 ∣ q) (hq32 : q ≤ 2 ^ 32)
    (hp : p = 2) (hm : m = 1)
    (hs : s.length = n) (hsv : ∀ x ∈ s, x.uint < q)
    (hdb : ∀ x ∈ db, x.q = 2 ∧ x.uint < 2)
    (hidx : idx < db.length)
    (herr : ∀ i, errs i = [⟨q, ev i⟩])
    (hev : ∀ i, (ev i : ℤ) = εs i % (q : ℤ))
    (hnoise : 4 * (((db.enum.filter (fun pr => pr.2.uint = 1)).map
      (fun pr => εs pr.1)).sum).natAbs < q) :
    ∃ (qs : List Element) (sa : List (List Element)) (sc : Element),
      query ⟨a, q, p, n, m⟩ idx s db.length errs = some qs ∧
      answer ⟨a, q, p, n, m⟩ qs db = some (sa, sc) ∧
      decrypt ⟨sa, q, p, n, m⟩ s sc = some (db.get ⟨idx, hidx⟩) := by
  subst hA hp hm
  have hq2 : 2 ≤ q := Nat.le_of_dvd hq heven
  have hevlt : ∀ i, ev i < q := by
    intro i
    have h1 := Int.emod_nonneg (εs i) (show (q : ℤ) ≠ 0 by exact_mod_cast hq.ne')
    have h2 := Int.emod_lt_of_pos (εs i) (show (0 : ℤ) < q by exact_mod_cast hq)
    have h3 := hev i
    omega
  have hquery := query_eval q n row s idx db.length errs ev hrowlen hrow hq hq2
    hq32 hs hsv herr hevlt hidx
  have hqsget : ∀ i, i < db.length →
      ((List.range db.length).map (fun i => (⟨q, (natDot row s + ev i +
        q / 2 * (if i = idx then 1 else 0)) % q⟩ : Element))).get? i =
      some ⟨q, (natDot row s + ev i +
        q / 2 * (if i = idx then 1 else 0)) % q⟩ := by
    intro i hi
    rw [List.get?_map, List.get?_range hi]
    rfl
  have hw0len : (List.replicate n (Element.zero q)).length = row.length := by
    rw [List.length_replicate, hrowlen]
  have hw0 : ∀ ab ∈ List.zip (List.replicate n (Element.zero q)) row,
      ab.1.q = q ∧ ab.1.uint < q ∧ ab.1.uint ≡ 0 * ab.2.uint [MOD q] := by
    intro ab hab
    have h1 := List.eq_of_mem_replicate (List.of_mem_zip hab).1
    rw [h1]
    exact ⟨rfl, hq, by simp [Element.zero, Nat.ModEq]⟩
  obtain ⟨w', k', u', hrun, hl, hwp, hup, husum, hkk⟩ :=
    answerLoop_eval q n row _
      (fun i => (natDot row s + ev i + q / 2 * (if i = idx then 1 else 0)) % q)
      db.length hrow hq hq32 hqsget (fun i => Nat.mod_lt _ hq) db 0
      (List.replicate n (Element.zero q)) 0 0 (by omega) hw0len hw0 hq
  rw [Nat.zero_add] at husum hkk
  have hanswer : answer ⟨[row], q, 2, n, 1⟩
      ((List.range db.length).map (fun i => (⟨q, (natDot row s + ev i +
        q / 2 * (if i = idx then 1 else 0)) % q⟩ : Element))) db =
      some ([w'], ⟨q, u'⟩) := by
    unfold answer
    exact hrun
  have hw' : ∀ x ∈ w', x.q = q ∧ x.uint < q := by
    intro x hx
    obtain ⟨y, hy⟩ := mem_left_zip w' row hl x hx
    exact ⟨(hwp (x, y) hy).1, (hwp (x, y) hy).2.1⟩
  have hdec := decrypt_eval [w'] q 2 n 1 w' s u' rfl (hl.trans hrowlen) hw'
    hq hq32 (by omega) hq2 hs hsv hup
  set g := db.get ⟨idx, hidx⟩ with hg
  obtain ⟨hgq, hgv⟩ := hdb g (List.get_mem db idx hidx)
  set F := (db.enumFrom 0).filter (fun pr => pr.2.uint = 1) with hF
  have husum' : u' ≡ (F.map (fun pr => (natDot row s + ev pr.1 +
      q / 2 * (if pr.1 = idx then 1 else 0)) % q)).sum [MOD q] := husum
  have hS1 : (F.map (fun pr => (natDot row s + ev pr.1 +
      q / 2 * (if pr.1 = idx then 1 else 0)) % q)).sum ≡
      (F.map (fun pr => natDot row s + ev pr.1 +
        q / 2 * (if pr.1 = idx then 1 else 0))).sum [MOD q] :=
    sum_map_modEq q F _ _ (fun x _ => Nat.mod_modEq _ q)
  have hB1 : (F.map (fun pr => natDot row s + ev pr.1 +
      q / 2 * (if pr.1 = idx then 1 else 0))).sum =
      (F.map (fun pr => natDot row s + ev pr.1)).sum +
      (F.map (fun pr => q / 2 * (if pr.1 = idx then 1 else 0))).sum :=
    sum_map_add F (fun pr => natDot row s + ev pr.1)
      (fun pr => q / 2 * (if pr.1 = idx then 1 else 0))
  have hB2 : (F.map (fun pr => natDot row s + ev pr.1)).sum =
      (F.map (fun _ => natDot row s)).sum + (F.map (fun pr => ev pr.1)).sum :=
    sum_map_add F (fun _ => natDot row s) (fun pr => ev pr.1)
  have hB3 : (F.map (fun _ => natDot row s)).sum = F.length * natDot row s :=
    sum_map_const F (natDot row s)
  have hB4 : (F.map (fun pr => q / 2 * (if pr.1 = idx then 1 else 0))).sum =
      q / 2 * (F.map (fun pr => if pr.1 = idx then 1 else 0)).sum :=
    sum_map_mul_const F (q / 2) (fun pr => if pr.1 = idx then 1 else 0)
  have hT := chi_sum_main idx db 0 (Nat.zero_le idx) (by simpa using hidx)
  rw [Nat.sub_zero] at hT
  have hgetd : db.getD idx (Element.zero 0) = g := by
    rw [List.getD_eq_get?, List.get?_eq_get hidx, Option.getD_some, hg]
  rw [hgetd, ← hF] at hT
  have hBeq : (F.map (fun pr => natDot row s + ev pr.1 +
      q / 2 * (if pr.1 = idx then 1 else 0))).sum =
      F.length * natDot row s + (F.map (fun pr => ev pr.1)).sum +
      q / 2 * (if g.uint = 1 then 1 else 0) := by
    rw [hB1, hB2, hB3, hB4, hT]
  have hNat : u' ≡ F.length * natDot row s + (F.map (fun pr => ev pr.1)).sum +
      q / 2 * (if g.uint = 1 then 1 else 0) [MOD q] := by
    rw [← hBeq]
    exact husum'.trans hS1
  have hscale : natDot w' s ≡ F.length * natDot row s [MOD q] := by
    have h0 := natDot_scaled q k' w' row s hl (fun ab hab => (hwp ab hab).2.2)
    rwa [hkk] at h0
  have hXlt : natDot w' s % q < q := Nat.mod_lt _ hq
  have hXNat : natDot w' s % q ≡ F.length * natDot row s [MOD q] :=
    (Nat.mod_modEq _ q).trans hscale
  have hu'Int : (u' : ℤ) ≡ ((F.length * natDot row s +
      (F.map (fun pr => ev pr.1)).sum +
      q / 2 * (if g.uint = 1 then 1 else 0) : ℕ) : ℤ) [ZMOD (q : ℤ)] :=
    Int.natCast_modEq_iff.mpr hNat
  have hXInt : ((natDot w' s % q : ℕ) : ℤ) ≡
      ((F.length * natDot row s : ℕ) : ℤ) [ZMOD (q : ℤ)] :=
    Int.natCast_modEq_iff.mpr hXNat
  have hsub := hu'Int.sub hXInt
  have hsimp : ((F.length * natDot row s + (F.map (fun pr => ev pr.1)).sum +
      q / 2 * (if g.uint = 1 then 1 else 0) : ℕ) : ℤ) -
      ((F.length * natDot row s : ℕ) : ℤ) =
      (((F.map (fun pr => ev pr.1)).sum : ℕ) : ℤ) +
      ((q / 2 : ℕ) : ℤ) * ((if g.uint = 1 then 1 else 0 : ℕ) : ℤ) := by
    push_cast
    ring
  rw [hsimp] at hsub
  have hEInt : (((F.map (fun pr => ev pr.1)).sum : ℕ) : ℤ) ≡
      (F.map (fun pr => εs pr.1)).sum [ZMOD (q : ℤ)] := by
    rw [Nat.cast_list_sum, List.map_map]
    refine sum_map_intModEq (q : ℤ) F _ _ (fun x _ => ?_)
    show ((ev x.1 : ℕ) : ℤ) ≡ εs x.1 [ZMOD (q : ℤ)]
    rw [hev x.1]
    unfold Int.ModEq
    rw [Int.emod_emod_of_dvd _ dvd_rfl]
  have hcomm : (F.map (fun pr => εs pr.1)).sum +
      ((q / 2 : ℕ) : ℤ) * ((if g.uint = 1 then 1 else 0 : ℕ) : ℤ) =
      ((q / 2 : ℕ) : ℤ) * ((if g.uint = 1 then 1 else 0 : ℕ) : ℤ) +
      (F.map (fun pr => εs pr.1)).sum := by
    ring
  have hfin : ((u' : ℤ) - ((natDot w' s % q : ℕ) : ℤ)) ≡
      ((q / 2 : ℕ) : ℤ) * ((if g.uint = 1 then 1 else 0 : ℕ) : ℤ) +
      (F.map (fun pr => εs pr.1)).sum [ZMOD (q : ℤ)] := by
    refine hsub.trans ?_
    rw [← hcomm]
    exact hEInt.add_right _
  have hrEq := residual_int q u' (natDot w' s % q) (by omega)
  have hr : (((u' + q - natDot w' s % q) % q : ℕ) : ℤ) =
      (((q / 2 : ℕ) : ℤ) * ((if g.uint = 1 then 1 else 0 : ℕ) : ℤ) +
        (F.map (fun pr => εs pr.1)).sum) % (q : ℤ) := by
    rw [hrEq]
    exact hfin
  have hround := round_recover q hq heven hq32 (if g.uint = 1 then 1 else 0)
    (by split <;> omega) ((F.map (fun pr => εs pr.1)).sum) hnoise
    ((u' + q - natDot w' s % q) % q) hr
  have hval : roundDiv ((u' + q - natDot w' s % q) % q * 2) q % 2 = g.uint := by
    rw [hround]
    by_cases hh : g.uint = 1
    · rw [if_pos hh, hh]
    · have h0 : g.uint = 0 := by omega
      rw [if_neg hh, h0]
  refine ⟨_, [w'], ⟨q, u'⟩, hquery, hanswer, ?_⟩
  rw [hdec, hval]
  conv_lhs => rw [← hgq]

/-- Witness for C1 at q = 12, n = 1, A = [[5]], s = [7], db = [1, 0],
idx = 0, every ciphertext error 1 (integer noise 1, |total| = 1, 4 < 12). -/
theorem C1_witness :
    ∃ (qs : List Element) (sa : List (List Element)) (sc : Element),
      query ⟨[[⟨12, 5⟩]], 12, 2, 1, 1⟩ 0 [⟨12, 7⟩] 2
        (fun _ => [⟨12, 1⟩]) = some qs ∧
      answer ⟨[[⟨12, 5⟩]], 12, 2, 1, 1⟩ qs [⟨2, 1⟩, ⟨2, 0⟩] = some (sa, sc) ∧
      decrypt ⟨sa, 12, 2, 1, 1⟩ [⟨12, 7⟩] sc =
        some (([⟨2, 1⟩, ⟨2, 0⟩] : List Element).get ⟨0, by decide⟩) :=
  C1_pir_correctness [[⟨12, 5⟩]] 12 2 1 1 [⟨12, 5⟩] [⟨12, 7⟩]
    [⟨2, 1⟩, ⟨2, 0⟩] 0 (fun _ => [⟨12, 1⟩]) (fun _ => 1) (fun _ => 1)
    rfl rfl (by decide) (by decide) (by decide) (by decide) rfl rfl rfl
    (by decide) (by decide) (by decide) (fun _ => rfl)
    (fun _ => (by decide : ((1 : ℕ) : ℤ) = (1 : ℤ) % (12 : ℤ))) (by decide)

end SimplePIR
